import Mathlib

/-! # conveyor: directive parsing, log source resolution and the owned container set

A shallow embedding of `conveyor.go` (`splitEnv`, `extractEnv`, `getContainerInfo`,
`isNeedLog`, `processEvent`) and of the state changes of `porter.go`
(`FileBeatPorter.List`, `Create`, `Delete`).

Modelling conventions.

* A Go `string` is a `List Char`.  Go measures and slices strings by bytes; the model
  does so by list length, `take` and `drop`, which is the same for strings of one-byte
  characters.
* A Go `map[string]T` is an association list with unique keys; `m[k]` is the first
  binding of `k` (the zero value when there is none) and `m[k] = v` replaces the binding
  of `k` or adds one at the end.  `map[string]bool` holding only `true` is the list of
  its keys.
* The order in which Go ranges over the path-group map is not specified; it is the
  parameter `rangeOrder` of `getContainerInfo`.
* A run-time panic (slice bounds out of range) is the result `none`.
* The Docker client is outside the model: `getContainerInfo` receives the inspection
  result, and an inspection error is not modelled.
-/

namespace Conveyor

/-! ## Strings and maps -/

abbrev GoString := List Char

/-- Go map read `m[k]` on a `map[string]string`: the empty string when `k` is absent. -/
def mapGet (m : List (GoString × GoString)) (k : GoString) : GoString :=
  (m.lookup k).getD []

/-- Go map write `m[k] = v`. -/
def mapSet {β : Type} : List (GoString × β) → GoString → β → List (GoString × β)
  | [], k, v => [(k, v)]
  | (k', v') :: rest, k, v =>
    if k' = k then (k', v) :: rest else (k', v') :: mapSet rest k v

/-- The statement `m[k] = append(m[k], x)` on a `map[string][]string`. -/
def mapAppend (m : List (GoString × List GoString)) (k x : GoString) :
    List (GoString × List GoString) :=
  mapSet m k ((m.lookup k).getD [] ++ [x])

/-- Go slice expression `s[n:]`; it panics when `n > len(s)`. -/
def goSliceFrom (s : GoString) (n : Nat) : Option GoString :=
  if n ≤ s.length then some (s.drop n) else none

/-! ## Go standard library: `strings` and `path` -/

/-- The white space of `unicode.IsSpace`. -/
def isSpace (ch : Char) : Bool :=
  ch = '\t' || ch = '\n' || ch = '\x0b' || ch = '\x0c' || ch = '\r' || ch = ' ' ||
  ch.val = 0x85 || ch.val = 0xA0 || ch.val = 0x1680 ||
  (0x2000 ≤ ch.val && ch.val ≤ 0x200a) ||
  ch.val = 0x2028 || ch.val = 0x2029 || ch.val = 0x202f || ch.val = 0x205f ||
  ch.val = 0x3000

/-- Go `strings.TrimSpace`. -/
def trimSpace (s : GoString) : GoString :=
  ((s.dropWhile isSpace).reverse.dropWhile isSpace).reverse

/-- Go `strings.Split(s, sep)` for a one-byte separator. -/
def stringsSplit (s : GoString) (sep : Char) : List GoString :=
  s.splitOn sep

/-- Go `strings.SplitN(s, sep, 2)` for a one-byte separator: cut at the first `sep`. -/
def stringsSplitN2 (s : GoString) (sep : Char) : List GoString :=
  match s.span (fun ch => ch != sep) with
  | (a, []) => [a]
  | (a, _ :: b) => [a, b]

def dotdot : GoString := ['.', '.']

/-- One path element of Go `path.Clean`; `stack` holds the elements written so far, the
last one first.  An empty element and `.` are dropped, `..` removes the preceding
element, is dropped at the root and is kept at the start of an unrooted path. -/
def cleanStep (rooted : Bool) (stack : List GoString) (e : GoString) : List GoString :=
  if e = [] ∨ e = ['.'] then stack
  else if e = dotdot then
    match stack with
    | [] => if rooted then [] else [e]
    | top :: rest => if top = dotdot then e :: stack else rest
  else e :: stack

/-- Go `path.Clean`. -/
def pathClean (path : GoString) : GoString :=
  if path = [] then ['.']
  else
    let rooted := path.head? = some '/'
    let out := (((path.splitOn '/').foldl (cleanStep rooted) []).reverse)
    if rooted then '/' :: ['/'].intercalate out
    else if out = [] then ['.'] else ['/'].intercalate out

/-- Go `path.Join`: the elements from the first non-empty one on, joined by `/` and
cleaned; the empty string when every element is empty. -/
def pathJoin (elem : List GoString) : GoString :=
  match elem.dropWhile (fun e => e = []) with
  | [] => []
  | es => pathClean (['/'].intercalate es)

/-- Go `filepath.Dir` on Linux: clean what precedes the final element of the path. -/
def filepathDir (path : GoString) : GoString :=
  pathClean (path.reverse.dropWhile (fun ch => ch != '/')).reverse

/-! ## conveyor.go: constants and data -/

def noneIndex : GoString := "_none_index".toList
def logBasePath : GoString := "/host".toList
def stdout : GoString := "stdout".toList
def envLogEnabled : GoString := "CONVEYOR_ENABLED".toList
def envLogName : GoString := "CONVEYOR_NAME".toList
def envLogField : GoString := "CONVEYOR_FIELD".toList
def envLogPath : GoString := "CONVEYOR_PATH".toList
def eventDestroy : GoString := "destroy".toList
def eventDie : GoString := "die".toList
def eventStart : GoString := "start".toList
def eventRestart : GoString := "restart".toList

structure ContainerInfo where
  ID : GoString
  Name : GoString
  Env : List (GoString × GoString)
  Labels : List (GoString × GoString)
  LogPath : List GoString
  deriving DecidableEq, Repr

structure EnvInfo where
  envs : List (GoString × GoString)
  labels : List (GoString × GoString)
  paths : List (GoString × List GoString)
  deriving DecidableEq, Repr

/-- One entry of `info.Mounts`. -/
structure MountPoint where
  Source : GoString
  Destination : GoString
  deriving DecidableEq, Repr

/-- The fields of the Docker inspection result (`types.ContainerJSON`) that
`getContainerInfo` reads: `ContainerJSONBase.Name`, `LogPath`, `Config.Env`,
`Config.Labels` and `Mounts`. -/
structure ContainerJSON where
  Name : GoString
  LogPath : GoString
  ConfigEnv : List GoString
  ConfigLabels : List (GoString × GoString)
  Mounts : List MountPoint
  deriving DecidableEq, Repr

def KubernetesLabels : List (GoString × GoString) :=
  [("io.kubernetes.pod.namespace".toList, "kubernetes_pod_namespace".toList),
   ("io.kubernetes.pod.name".toList, "kubernetes_pod_name".toList),
   ("io.kubernetes.container.name".toList, "kubernetes_container_name".toList)]

/-! ## conveyor.go: the directive parser -/

def isNeedLog (name : GoString) (container : ContainerInfo) : Bool :=
  mapGet container.Env envLogEnabled = "true".toList ∧ mapGet container.Env envLogName = name

def splitEnv (env : GoString) : GoString × GoString :=
  match stringsSplitN2 env '=' with
  | [k, v] => (trimSpace k, trimSpace v)
  | _ => ([], [])

def copyLabels (lbs : List (GoString × GoString)) : List (GoString × GoString) :=
  lbs

/-- Body of the loop over the fields of `CONVEYOR_FIELD`. -/
def extractField (labels : List (GoString × GoString)) (field : GoString) :
    List (GoString × GoString) :=
  let kv := splitEnv field
  if kv.1 ≠ [] ∧ kv.2 ≠ [] then mapSet labels kv.1 kv.2 else labels

/-- Body of the loop over the `;`-separated groups of `CONVEYOR_PATH`. -/
def extractPath (paths : List (GoString × List GoString)) (path : GoString) :
    List (GoString × List GoString) :=
  match stringsSplit path ':' with
  | [p0] => mapAppend paths noneIndex (trimSpace p0)
  | [idx, lp] =>
    (stringsSplit lp ',').foldl (fun ps finalPath => mapAppend ps idx (trimSpace finalPath)) paths
  | _ => paths

/-- Body of the loop over `envContent`. -/
def extractEnvStep (st : EnvInfo) (env : GoString) : EnvInfo :=
  let kv := splitEnv env
  if kv.1 = [] ∧ kv.2 = [] then st
  else if kv.1 = envLogField then
    { st with labels := (stringsSplit kv.2 ',').foldl extractField st.labels }
  else if kv.1 = envLogPath then
    { st with paths := (stringsSplit kv.2 ';').foldl extractPath st.paths }
  else { st with envs := mapSet st.envs kv.1 kv.2 }

def extractEnv (envContent : List GoString) : EnvInfo :=
  envContent.foldl extractEnvStep { envs := [], labels := [], paths := [] }

/-! ## conveyor.go: the log source resolver -/

/-- The loop `for k, v := range info.Config.Labels` of `getContainerInfo`. -/
def kubernetesLabelStep (labels : List (GoString × GoString)) (kv : GoString × GoString) :
    List (GoString × GoString) :=
  if mapGet KubernetesLabels kv.1 ≠ [] then mapSet labels (mapGet KubernetesLabels kv.1) kv.2
  else labels

/-- The `switch idx` of `getContainerInfo`: the label map of the record of group `idx`. -/
def groupLabels (info : ContainerJSON) (labels : List (GoString × GoString))
    (idx : GoString) : Option (List (GoString × GoString)) :=
  let lbs := copyLabels labels
  if idx = noneIndex then
    let lb := mapGet labels "kubernetes_container_name".toList
    if lb = [] then
      (goSliceFrom info.Name 1).map (fun name => mapSet lbs "index".toList name)
    else some lbs
  else some (mapSet lbs "index".toList idx)

/-- The loop `for _, mountPoint := range info.Mounts` for the declared path `p`; the state
is the pair of `lpath` and `isExist`. -/
def resolveMounts (p : GoString) :
    List MountPoint → List GoString × List GoString → Option (List GoString × List GoString)
  | [], st => some st
  | mountPoint :: rest, st =>
    let baseDir := filepathDir p
    if baseDir.length < mountPoint.Destination.length then resolveMounts p rest st
    else if mountPoint.Destination = baseDir.take mountPoint.Destination.length then
      match goSliceFrom p mountPoint.Destination.length with
      | none => none
      | some suffix =>
        let finalPath := pathJoin [logBasePath, mountPoint.Source ++ suffix]
        if finalPath ∈ st.2 then resolveMounts p rest st
        else resolveMounts p rest (st.1 ++ [finalPath], finalPath :: st.2)
    else resolveMounts p rest st

/-- The loop `for _, p := range paths` of `getContainerInfo`. -/
def resolvePaths (info : ContainerJSON) :
    List GoString → List GoString × List GoString → Option (List GoString × List GoString)
  | [], st => some st
  | p :: rest, st =>
    if p = stdout then
      let lp := pathJoin [logBasePath, info.LogPath]
      if lp ∈ st.2 then resolvePaths info rest st
      else resolvePaths info rest (st.1 ++ [pathJoin [logBasePath, info.LogPath]], lp :: st.2)
    else
      match resolveMounts p info.Mounts st with
      | none => none
      | some st' => resolvePaths info rest st'

/-- The loop `for idx, paths := range envInfo.paths` of `getContainerInfo`, over the
groups in the order `groups`; the state is the pair of `containers` and `isExist`. -/
def resolveGroups (containerID : GoString) (info : ContainerJSON)
    (envs labels : List (GoString × GoString)) :
    List (GoString × List GoString) → List ContainerInfo × List GoString →
      Option (List ContainerInfo × List GoString)
  | [], st => some st
  | (idx, paths) :: rest, st =>
    match groupLabels info labels idx with
    | none => none
    | some lbs =>
      match resolvePaths info paths ([], st.2) with
      | none => none
      | some (lpath, isExist) =>
        resolveGroups containerID info envs labels rest
          (st.1 ++ [{ ID := containerID, Name := info.Name, Env := envs, Labels := lbs,
                      LogPath := lpath }], isExist)

/-- The function `getContainerInfo` applied to the inspection result `info` of
`containerID`; `rangeOrder` is the order in which Go ranges over `envInfo.paths`. -/
def getContainerInfo
    (rangeOrder : List (GoString × List GoString) → List (GoString × List GoString))
    (containerID : GoString) (info : ContainerJSON) : Option (List ContainerInfo) :=
  let envInfo := extractEnv info.ConfigEnv
  let envs := envInfo.envs
  let labels := info.ConfigLabels.foldl kubernetesLabelStep envInfo.labels
  match resolveGroups containerID info envs labels (rangeOrder envInfo.paths) ([], []) with
  | none => none
  | some (containers, _) =>
    if containers.length = 0 then
      some (containers ++ [{ ID := [], Name := [], Env := [], Labels := [], LogPath := [] }])
    else some containers

/-! ## porter.go: the owned container set of `FileBeatPorter` -/

/-- The state of `FileBeatPorter` that `List`, `Create` and `Delete` change: the owned
container set `p.containers`.  Writing the configuration file (`updateConfig`) does not
change it; it is not modelled and is taken to succeed. -/
structure FileBeatPorter where
  containers : List ContainerInfo
  deriving DecidableEq, Repr

/-- The method `Create`: the log line slices `container.ID[:8]`, which panics on an `ID`
shorter than 8 bytes. -/
def FileBeatPorter.Create (p : FileBeatPorter) (container : ContainerInfo) :
    Option FileBeatPorter :=
  if container.ID.length < 8 then none
  else some { containers := p.containers ++ [container] }

/-- The method `Delete`, with the same log line as `Create`. -/
def FileBeatPorter.Delete (p : FileBeatPorter) (container : ContainerInfo) :
    Option FileBeatPorter :=
  if container.ID.length < 8 then none
  else some { containers := p.containers.filter (fun origin => origin.ID ≠ container.ID) }

/-- The method `List`. -/
def FileBeatPorter.List (_p : FileBeatPorter) (containers : List ContainerInfo) :
    FileBeatPorter :=
  { containers := containers }

/-- The loop `for _, container := range containers` of `processEvent`. -/
def processContainers (action : GoString) :
    List ContainerInfo → FileBeatPorter → Option FileBeatPorter
  | [], p => some p
  | container :: rest, p =>
    if action = eventStart ∨ action = eventRestart then
      match p.Create container with
      | none => none
      | some p' => processContainers action rest p'
    else if action = eventDestroy ∨ action = eventDie then
      match p.Delete container with
      | none => none
      | some p' => processContainers action rest p'
    else processContainers action rest p

/-- The function `processEvent` for an event with action `action` whose actor is
`containerID` with inspection result `info`: its effect on the porter. -/
def processEvent (name : GoString)
    (rangeOrder : List (GoString × List GoString) → List (GoString × List GoString))
    (action containerID : GoString) (info : ContainerJSON) (p : FileBeatPorter) :
    Option FileBeatPorter :=
  match getContainerInfo rangeOrder containerID info with
  | none => none
  | some [] => none
  | some (first :: rest) =>
    if !isNeedLog name first then some p
    else processContainers action (first :: rest) p

/-! ## Specification vocabulary -/

/-- The mount `m` matches the declared path `p`: its `Destination` is a textual prefix of
the parent directory of `p`. -/
def mountMatches (m : MountPoint) (p : GoString) : Prop :=
  m.Destination <+: filepathDir p

instance (m : MountPoint) (p : GoString) : Decidable (mountMatches m p) := by
  unfold mountMatches; infer_instance

/-- The host path the mount `m` contributes for the declared path `p`:
`path.Join("/host", m.Source + p[len(m.Destination):])`. -/
def mountCandidate (m : MountPoint) (p : GoString) : GoString :=
  pathJoin [logBasePath, m.Source ++ p.drop m.Destination.length]

/-- The list `xs` with the later duplicates removed. -/
def firstOccurrences : List GoString → List GoString
  | [] => []
  | x :: xs => x :: (firstOccurrences xs).filter (fun y => y ≠ x)

/-- The host paths of the declared path `p`, in the order the resolver meets them. -/
def pathCandidates (info : ContainerJSON) (p : GoString) : List GoString :=
  if p = stdout then [pathJoin [logBasePath, info.LogPath]]
  else (info.Mounts.filter (fun m => mountMatches m p)).map (fun m => mountCandidate m p)

/-- No slice `p[len(m.Destination):]` taken for the path `p` is out of range. -/
def sliceInRange (mounts : List MountPoint) (p : GoString) : Prop :=
  ∀ m ∈ mounts, mountMatches m p → m.Destination.length ≤ p.length

instance (mounts : List MountPoint) (p : GoString) : Decidable (sliceInRange mounts p) := by
  unfold sliceInRange; infer_instance

/-- Record `x` in the pair of `lpath` and `isExist` unless it was seen before. -/
def addNew (st : List GoString × List GoString) (x : GoString) :
    List GoString × List GoString :=
  if x ∈ st.2 then st else (st.1 ++ [x], x :: st.2)

/-- The declared paths `ps` raise no slice panic. -/
def pathsInRange (info : ContainerJSON) (ps : List GoString) : Prop :=
  ∀ p ∈ ps, p ≠ stdout → sliceInRange info.Mounts p

/-- The host paths of all declared paths of one group. -/
def groupCandidates (info : ContainerJSON) (g : GoString × List GoString) : List GoString :=
  g.2.flatMap (pathCandidates info)

/-- The record `r` is the one emitted for the group `g`, its `LogPath` left aside: it
carries the container's identity, the parsed environment and the labels of the group,
and every entry of its `LogPath` is a host path of a declared path of `g`. -/
def recordOfGroup (containerID : GoString) (info : ContainerJSON)
    (envs labels : List (GoString × GoString)) (g : GoString × List GoString)
    (r : ContainerInfo) : Prop :=
  r.ID = containerID ∧ r.Name = info.Name ∧ r.Env = envs ∧
    groupLabels info labels g.1 = some r.Labels ∧
    ∀ e ∈ r.LogPath, e ∈ groupCandidates info g

/-- The label map `getContainerInfo` hands to every group: the labels of
`CONVEYOR_FIELD` with the Kubernetes labels of the container merged in. -/
def mergedLabels (info : ContainerJSON) : List (GoString × GoString) :=
  info.ConfigLabels.foldl kubernetesLabelStep (extractEnv info.ConfigEnv).labels

/-- The value `&ContainerInfo{}` emitted for a container without path groups. -/
def emptyContainerInfo : ContainerInfo :=
  { ID := [], Name := [], Env := [], Labels := [], LogPath := [] }

/-- The records the resolver emits for the groups `groups`, visited in this order, when
the host paths `seen` were recorded before: the record of a group holds the host paths
of the group, later duplicates removed, that no group visited earlier resolved to. -/
def expectedRecords (containerID : GoString) (info : ContainerJSON)
    (envs labels : List (GoString × GoString)) :
    List GoString → List (GoString × List GoString) → List ContainerInfo
  | _, [] => []
  | seen, g :: groups =>
    { ID := containerID, Name := info.Name, Env := envs,
      Labels := (groupLabels info labels g.1).getD [],
      LogPath := (firstOccurrences (groupCandidates info g)).filter (fun e => e ∉ seen) } ::
      expectedRecords containerID info envs labels (seen ++ groupCandidates info g) groups

/-- No host path is resolved by two of the groups. -/
def noSharedPath (info : ContainerJSON) (groups : List (GoString × List GoString)) : Prop :=
  groups.Pairwise (fun g g' =>
    ∀ e ∈ groupCandidates info g, e ∉ groupCandidates info g')

instance (info : ContainerJSON) (groups : List (GoString × List GoString)) :
    Decidable (noSharedPath info groups) := by
  unfold noSharedPath; infer_instance

/-- The bytes of the path elements `l`, one separator counted with each. -/
def elemsSize (l : List GoString) : Nat :=
  (l.map (fun e => e.length + 1)).sum

/-! ## Vocabulary of the field directive -/

/-- One comma-separated field of a `CONVEYOR_FIELD` value, as `splitEnv` reads it. -/
inductive FieldItem where
  | pair (k v : GoString)
  | missingKey (v : GoString)
  | missingValue (k : GoString)
  | bare (s : GoString)

/-- The text of a field: `k=v`, `=v`, `k=` or a text without `=`. -/
def FieldItem.render : FieldItem → GoString
  | .pair k v => k ++ '=' :: v
  | .missingKey v => '=' :: v
  | .missingValue k => k ++ ['=']
  | .bare s => s

/-- The parts of a field hold no separator: no `,` anywhere and no `=` in what precedes
the first `=`; the key and the value of a pair are not empty and carry no white space at
their ends. -/
def FieldItem.wellFormed : FieldItem → Prop
  | .pair k v => k ≠ [] ∧ v ≠ [] ∧ '=' ∉ k ∧ ',' ∉ k ∧ ',' ∉ v ∧
      trimSpace k = k ∧ trimSpace v = v
  | .missingKey v => ',' ∉ v
  | .missingValue k => '=' ∉ k ∧ ',' ∉ k
  | .bare s => '=' ∉ s ∧ ',' ∉ s

instance (it : FieldItem) : Decidable it.wellFormed := by
  cases it <;> (unfold FieldItem.wellFormed; infer_instance)

/-- The effect of a field on the labels: a pair sets its key, anything else does nothing. -/
def FieldItem.apply (labels : List (GoString × GoString)) : FieldItem → List (GoString × GoString)
  | .pair k v => mapSet labels k v
  | _ => labels

/-- The `CONVEYOR_FIELD` value made of the fields `items`. -/
def fieldValue (items : List FieldItem) : GoString :=
  [','].intercalate (items.map FieldItem.render)

/-! ## Vocabulary of the owned container set -/

/-- The group index of a record: its label `index`. -/
def groupIndex (c : ContainerInfo) : GoString :=
  mapGet c.Labels "index".toList

/-- Two records of the same container and the same group. -/
def sameGroup (a b : ContainerInfo) : Prop :=
  a.ID = b.ID ∧ groupIndex a = groupIndex b

instance (a b : ContainerInfo) : Decidable (sameGroup a b) := by
  unfold sameGroup; infer_instance

/-- No two entries of `cs` have the same `ID` and the same group index. -/
def noDuplicateGroup (cs : List ContainerInfo) : Prop :=
  cs.Pairwise (fun a b => ¬ sameGroup a b)

instance (cs : List ContainerInfo) : Decidable (noDuplicateGroup cs) := by
  unfold noDuplicateGroup; infer_instance

/-- A call of one of the three methods that change the owned set. -/
inductive PorterOp where
  | list (containers : List ContainerInfo)
  | create (container : ContainerInfo)
  | delete (container : ContainerInfo)

def porterStep (p : FileBeatPorter) : PorterOp → Option FileBeatPorter
  | .list containers => some (p.List containers)
  | .create container => p.Create container
  | .delete container => p.Delete container

def porterRun : List PorterOp → FileBeatPorter → Option FileBeatPorter
  | [], p => some p
  | op :: ops, p =>
    match porterStep p op with
    | none => none
    | some p' => porterRun ops p'

/-- The call `op` meets the proviso of the invariant in the state `p`: a `List` receives
a sequence without duplicates, a `Create` adds a record whose `ID` and group index no
entry of the owned set has. -/
def opAdmissible (p : FileBeatPorter) : PorterOp → Prop
  | .list containers => noDuplicateGroup containers
  | .create container => ∀ x ∈ p.containers, ¬ sameGroup x container
  | .delete _ => True

instance (p : FileBeatPorter) (op : PorterOp) : Decidable (opAdmissible p op) := by
  cases op <;> (unfold opAdmissible; infer_instance)

/-- Every call of the run `ops` started in `p` is admissible in the state it meets. -/
def runAdmissible : List PorterOp → FileBeatPorter → Prop
  | [], _ => True
  | op :: ops, p =>
    opAdmissible p op ∧
      match porterStep p op with
      | none => True
      | some p' => runAdmissible ops p'

instance decRunAdmissible : (ops : List PorterOp) → (p : FileBeatPorter) →
    Decidable (runAdmissible ops p)
  | [], _ => isTrue trivial
  | op :: ops, p => by
    unfold runAdmissible
    cases porterStep p op with
    | none => exact inferInstance
    | some p' =>
      have := decRunAdmissible ops p'
      exact inferInstance

/-! ## Vocabulary of the order of the groups and of cleaned paths -/

/-- The record `r` without its `LogPath`. -/
def stripLogPath (r : ContainerInfo) : ContainerInfo :=
  { r with LogPath := [] }

/-- The path elements `path.Clean` keeps: all but the empty ones and `.`. -/
def keptElement (e : GoString) : Bool :=
  e ≠ [] ∧ e ≠ ['.']

/-! ## Example containers -/

/-- A container whose runtime log file is the host file behind its declared path. -/
def stdoutTwice : ContainerJSON :=
  { Name := "/app".toList, LogPath := "/data/app1/app.log".toList,
    ConfigEnv := ["CONVEYOR_PATH=stdout;/var/log/app.log".toList], ConfigLabels := [],
    Mounts := [⟨"/data/app1".toList, "/var/log".toList⟩] }

def stdoutTwiceRecord : ContainerInfo :=
  { ID := "0123456789ab".toList, Name := "/app".toList, Env := [],
    Labels := [("index".toList, "app".toList)],
    LogPath := ["/host/data/app1/app.log".toList] }

/-- A container that is enabled and named `main` but declares no `CONVEYOR_PATH`. -/
def enabledWithoutPath : ContainerJSON :=
  { Name := "/app".toList, LogPath := "/var/lib/docker/c.log".toList,
    ConfigEnv := ["CONVEYOR_ENABLED=true".toList, "CONVEYOR_NAME=main".toList],
    ConfigLabels := [], Mounts := [] }

/-- A container that is enabled, named `main` and declares the path `stdout`. -/
def enabledWithStdout : ContainerJSON :=
  { Name := "/app".toList, LogPath := "/var/lib/docker/c.log".toList,
    ConfigEnv := ["CONVEYOR_ENABLED=true".toList, "CONVEYOR_NAME=main".toList,
      "CONVEYOR_PATH=stdout".toList],
    ConfigLabels := [], Mounts := [] }

def enabledWithStdoutRecord : ContainerInfo :=
  { ID := "0123456789ab".toList, Name := "/app".toList,
    Env := [("CONVEYOR_ENABLED".toList, "true".toList), ("CONVEYOR_NAME".toList, "main".toList)],
    Labels := [("index".toList, "app".toList)],
    LogPath := ["/host/var/lib/docker/c.log".toList] }

/-- A Kubernetes container that declares the path `stdout` in the default group. -/
def kubernetesWithStdout : ContainerJSON :=
  { Name := "/k8s_web_pod".toList, LogPath := "/var/lib/docker/c.log".toList,
    ConfigEnv := ["CONVEYOR_PATH=stdout".toList],
    ConfigLabels := [("io.kubernetes.container.name".toList, "web".toList)], Mounts := [] }

def kubernetesWithStdoutRecord : ContainerInfo :=
  { ID := "0123456789ab".toList, Name := "/k8s_web_pod".toList, Env := [],
    Labels := [("kubernetes_container_name".toList, "web".toList)],
    LogPath := ["/host/var/lib/docker/c.log".toList] }

/-- A container with the two explicit groups of scenario 3 of the specification. -/
def webAndDb : ContainerJSON :=
  { Name := "/app".toList, LogPath := "/var/lib/docker/c.log".toList,
    ConfigEnv := ["CONVEYOR_PATH=web:/var/log/web.log;db:/var/log/db.log".toList],
    ConfigLabels := [], Mounts := [⟨"/data/app1".toList, "/var/log".toList⟩] }

def webRecord : ContainerInfo :=
  { ID := "0123456789ab".toList, Name := "/app".toList, Env := [],
    Labels := [("index".toList, "web".toList)],
    LogPath := ["/host/data/app1/web.log".toList] }

def dbRecord : ContainerInfo :=
  { ID := "0123456789ab".toList, Name := "/app".toList, Env := [],
    Labels := [("index".toList, "db".toList)],
    LogPath := ["/host/data/app1/db.log".toList] }

/-- A container whose groups `a` and `b` declare the same path under two overlapping
mounts. -/
def sharedPathGroups : ContainerJSON :=
  { Name := "/app".toList, LogPath := "/var/lib/docker/c.log".toList,
    ConfigEnv := ["CONVEYOR_PATH=a:/var/log/app.log;b:/var/log/app.log".toList],
    ConfigLabels := [],
    Mounts := [⟨"/data/app1".toList, "/var/log".toList⟩, ⟨"/data".toList, "/var".toList⟩] }

/-- The record of group `idx` of `sharedPathGroups` with the entries `lpath`. -/
def sharedPathRecord (idx : GoString) (lpath : List GoString) : ContainerInfo :=
  { ID := "0123456789ab".toList, Name := "/app".toList, Env := [],
    Labels := [("index".toList, idx)], LogPath := lpath }

/-- A container whose two mounts are nested the same way in the container and on the
host: `/var/log` is `/data/log` and `/var` is `/data`. -/
def nestedMounts : ContainerJSON :=
  { Name := "/app".toList, LogPath := "/var/lib/docker/c.log".toList,
    ConfigEnv := ["CONVEYOR_PATH=/var/log/app.log".toList], ConfigLabels := [],
    Mounts := [⟨"/data/log".toList, "/var/log".toList⟩, ⟨"/data".toList, "/var".toList⟩] }

/-- A container with two overlapping mounts that lead to different host directories. -/
def overlappingMounts : ContainerJSON :=
  { Name := "/app".toList, LogPath := "/var/lib/docker/c.log".toList,
    ConfigEnv := ["CONVEYOR_PATH=/var/log/app.log".toList], ConfigLabels := [],
    Mounts := [⟨"/data/app1".toList, "/var/log".toList⟩, ⟨"/data".toList, "/var".toList⟩] }

def overlappingMountsRecord : ContainerInfo :=
  { ID := "0123456789ab".toList, Name := "/app".toList, Env := [],
    Labels := [("index".toList, "app".toList)],
    LogPath := ["/host/data/app1/app.log".toList, "/host/data/log/app.log".toList] }

/-- A container that declares `stdout` in the two groups `a` and `b`. -/
def stdoutInTwoGroups : ContainerJSON :=
  { Name := "/app".toList, LogPath := "/var/lib/docker/c.log".toList,
    ConfigEnv := ["CONVEYOR_PATH=a:stdout;b:stdout".toList], ConfigLabels := [],
    Mounts := [] }

/-- The record of group `idx` of `stdoutInTwoGroups` with the entries `lpath`. -/
def stdoutGroupRecord (idx : GoString) (lpath : List GoString) : ContainerInfo :=
  { ID := "0123456789ab".toList, Name := "/app".toList, Env := [],
    Labels := [("index".toList, idx)], LogPath := lpath }

/-- A container whose declared path climbs out of its mount with `..` elements. -/
def climbingPath : ContainerJSON :=
  { Name := "/app".toList, LogPath := "/var/lib/docker/c.log".toList,
    ConfigEnv := ["CONVEYOR_PATH=/etc/../../etc/passwd".toList], ConfigLabels := [],
    Mounts := [⟨"/data".toList, "/etc".toList⟩] }

/-! # Theorems -/

/-! ## Maps -/

theorem lookup_mapSet {β : Type} (m : List (GoString × β)) (k k' : GoString) (v : β) :
    (mapSet m k v).lookup k' = if k' = k then some v else m.lookup k' := by
  induction m with
  | nil =>
    by_cases h : k' = k
    · simp [mapSet, h]
    · have hb : (k' == k) = false := by simpa using h
      simp [mapSet, List.lookup, h, hb]
  | cons hd tl ih =>
    obtain ⟨a, b⟩ := hd
    by_cases h1 : a = k
    · subst h1
      by_cases h : k' = a
      · simp [mapSet, h]
      · have hb : (k' == a) = false := by simpa using h
        simp [mapSet, List.lookup_cons, h, hb]
    · by_cases h : k' = k
      · subst h
        have : (k' == a) = false := by simpa using fun h2 => h1 h2.symm
        simp [mapSet, h1, List.lookup_cons, this, ih]
      · simp only [mapSet, h1, if_false, List.lookup_cons, ih, h]

theorem mapGet_mapSet (m : List (GoString × GoString)) (k k' v : GoString) :
    mapGet (mapSet m k v) k' = if k' = k then v else mapGet m k' := by
  unfold mapGet
  rw [lookup_mapSet]
  split <;> rfl

/-! ## The seen-set loop -/

theorem addNew_foldl_shift (xs : List GoString) (lp seen : List GoString) :
    xs.foldl addNew (lp, seen) =
      (lp ++ (xs.foldl addNew ([], seen)).1, (xs.foldl addNew ([], seen)).2) := by
  induction xs generalizing lp seen with
  | nil => simp
  | cons x xs ih =>
    simp only [List.foldl_cons]
    by_cases h : x ∈ seen
    · simp only [addNew, h, if_true]
      exact ih lp seen
    · simp only [addNew, h, if_false]
      rw [ih (lp ++ [x]) (x :: seen), ih ([] ++ [x]) (x :: seen)]
      simp

theorem addNew_foldl_fst (xs : List GoString) (seen : List GoString) :
    (xs.foldl addNew ([], seen)).1 = (firstOccurrences xs).filter (fun y => y ∉ seen) := by
  induction xs generalizing seen with
  | nil => simp [firstOccurrences]
  | cons x xs ih =>
    simp only [List.foldl_cons, firstOccurrences]
    by_cases h : x ∈ seen
    · simp only [addNew, h, if_true]
      rw [ih seen, List.filter_cons_of_neg (by simpa using h), List.filter_filter]
      apply List.filter_congr
      intro y _
      by_cases hy : y ∈ seen
      · simp [hy]
      · have : y ≠ x := fun e => hy (e ▸ h)
        simp [hy, this]
    · simp only [addNew, h, if_false]
      rw [addNew_foldl_shift, ih (x :: seen), List.filter_cons_of_pos (by simpa using h),
        List.filter_filter]
      simp only [List.nil_append, List.singleton_append, List.cons.injEq, true_and]
      apply List.filter_congr
      intro y _
      by_cases hy : y ∈ seen <;> by_cases hx : y = x <;> simp [hy, hx]

theorem mem_firstOccurrences (xs : List GoString) (y : GoString) :
    y ∈ firstOccurrences xs ↔ y ∈ xs := by
  induction xs with
  | nil => simp [firstOccurrences]
  | cons x xs ih =>
    simp only [firstOccurrences, List.mem_cons, List.mem_filter, ih]
    by_cases h : y = x <;> simp [h]

theorem nodup_firstOccurrences (xs : List GoString) : (firstOccurrences xs).Nodup := by
  induction xs with
  | nil => simp [firstOccurrences]
  | cons x xs ih =>
    simp only [firstOccurrences, List.nodup_cons, List.mem_filter]
    exact ⟨by simp, ih.filter _⟩

/-! ## The resolver loops -/

theorem mountMatches_iff (m : MountPoint) (p : GoString) :
    mountMatches m p ↔ ¬ (filepathDir p).length < m.Destination.length ∧
      m.Destination = (filepathDir p).take m.Destination.length := by
  unfold mountMatches
  rw [List.prefix_iff_eq_take]
  constructor
  · intro h
    refine ⟨?_, h⟩
    have := congrArg List.length h
    rw [List.length_take] at this
    omega
  · exact fun h => h.2

theorem resolveMounts_of_inRange (p : GoString) (ms : List MountPoint)
    (st : List GoString × List GoString) (h : sliceInRange ms p) :
    resolveMounts p ms st =
      some (((ms.filter (fun m => mountMatches m p)).map (fun m => mountCandidate m p)).foldl
        addNew st) := by
  induction ms generalizing st with
  | nil => simp [resolveMounts]
  | cons m ms ih =>
    have hms : sliceInRange ms p := fun x hx => h x (List.mem_cons_of_mem _ hx)
    unfold resolveMounts
    by_cases hm : mountMatches m p
    · have hlen := h m (List.mem_cons_self _ _) hm
      obtain ⟨h1, h2⟩ := (mountMatches_iff m p).1 hm
      simp only [h1, if_false, ← h2, if_true, goSliceFrom, hlen]
      rw [List.filter_cons_of_pos (by simpa using hm)]
      simp only [List.map_cons, List.foldl_cons, addNew, mountCandidate]
      split
      · exact ih _ hms
      · exact ih _ hms
    · rw [List.filter_cons_of_neg (by simpa using hm)]
      rw [mountMatches_iff] at hm
      by_cases h1 : (filepathDir p).length < m.Destination.length
      · simp only [h1, if_true]
        exact ih _ hms
      · have h2 : ¬ m.Destination = (filepathDir p).take m.Destination.length :=
          fun e => hm ⟨h1, e⟩
        simp only [h1, if_false, h2]
        exact ih _ hms

theorem resolveMounts_inRange (p : GoString) (ms : List MountPoint)
    (st st' : List GoString × List GoString) (h : resolveMounts p ms st = some st') :
    sliceInRange ms p := by
  induction ms generalizing st with
  | nil => intro m hm; simp at hm
  | cons m ms ih =>
    unfold resolveMounts at h
    intro x hx hmatch
    rcases List.mem_cons.1 hx with rfl | hx
    · obtain ⟨h1, h2⟩ := (mountMatches_iff x p).1 hmatch
      simp only [h1, if_false, ← h2, if_true, goSliceFrom] at h
      by_contra hlen
      simp [hlen] at h
    · revert h
      simp only []
      split
      · exact fun h => ih _ h x hx hmatch
      · split
        · split
          · intro h; exact absurd h (by simp)
          · split
            · exact fun h => ih _ h x hx hmatch
            · exact fun h => ih _ h x hx hmatch
        · exact fun h => ih _ h x hx hmatch

theorem resolvePaths_of_inRange (info : ContainerJSON) (ps : List GoString)
    (st : List GoString × List GoString) (h : pathsInRange info ps) :
    resolvePaths info ps st = some ((ps.flatMap (pathCandidates info)).foldl addNew st) := by
  induction ps generalizing st with
  | nil => simp [resolvePaths]
  | cons p ps ih =>
    have hps : pathsInRange info ps := fun x hx => h x (List.mem_cons_of_mem _ hx)
    unfold resolvePaths
    simp only [List.flatMap_cons, List.foldl_append]
    by_cases hp : p = stdout
    · simp only [hp, if_true, pathCandidates, List.foldl_cons, List.foldl_nil, addNew]
      split
      · exact ih _ hps
      · exact ih _ hps
    · simp only [hp, if_false, pathCandidates]
      rw [resolveMounts_of_inRange p info.Mounts st (h p (List.mem_cons_self _ _) hp)]
      exact ih _ hps

theorem resolvePaths_inRange (info : ContainerJSON) (ps : List GoString)
    (st st' : List GoString × List GoString) (h : resolvePaths info ps st = some st') :
    pathsInRange info ps := by
  induction ps generalizing st with
  | nil => intro p hp; simp at hp
  | cons p ps ih =>
    unfold resolvePaths at h
    intro x hx hne
    by_cases hp : p = stdout
    · simp only [hp, if_true] at h
      rcases List.mem_cons.1 hx with rfl | hx
      · exact absurd hp hne
      · revert h
        split
        · exact fun h => ih _ h x hx hne
        · exact fun h => ih _ h x hx hne
    · simp only [hp, if_false] at h
      cases hm : resolveMounts p info.Mounts st with
      | none => simp [hm] at h
      | some st1 =>
        simp only [hm] at h
        rcases List.mem_cons.1 hx with rfl | hx
        · exact resolveMounts_inRange _ _ _ _ hm
        · exact ih _ h x hx hne

theorem resolveGroups_some (containerID : GoString) (info : ContainerJSON)
    (envs labels : List (GoString × GoString)) (groups : List (GoString × List GoString))
    (cs cs' : List ContainerInfo) (seen seen' : List GoString)
    (h : resolveGroups containerID info envs labels groups (cs, seen) = some (cs', seen')) :
    ∃ rs, cs' = cs ++ rs ∧
      List.Forall₂ (recordOfGroup containerID info envs labels) groups rs ∧
      (groups.flatMap (groupCandidates info)).foldl addNew ([], seen) =
        (rs.flatMap (fun r => r.LogPath), seen') := by
  induction groups generalizing cs seen with
  | nil =>
    simp only [resolveGroups, Option.some.injEq, Prod.mk.injEq] at h
    exact ⟨[], by simp [h.1], List.Forall₂.nil, by simp [h.2]⟩
  | cons g groups ih =>
    obtain ⟨idx, paths⟩ := g
    unfold resolveGroups at h
    cases hl : groupLabels info labels idx with
    | none => simp [hl] at h
    | some lbs =>
      simp only [hl] at h
      cases hp : resolvePaths info paths ([], seen) with
      | none => simp [hp] at h
      | some st1 =>
        obtain ⟨lpath, isExist⟩ := st1
        simp only [hp] at h
        have hr := resolvePaths_inRange info paths _ _ hp
        rw [resolvePaths_of_inRange info paths _ hr] at hp
        simp only [Option.some.injEq] at hp
        obtain ⟨rs, hcs, hall, hfold⟩ := ih _ _ h
        refine ⟨{ ID := containerID, Name := info.Name, Env := envs, Labels := lbs,
                  LogPath := lpath } :: rs, by simp [hcs], List.Forall₂.cons ?_ hall, ?_⟩
        · refine ⟨rfl, rfl, rfl, hl, ?_⟩
          intro e he
          have h1 : lpath = ((paths.flatMap (pathCandidates info)).foldl addNew ([], seen)).1 := by
            rw [hp]
          change e ∈ lpath at he
          rw [h1, addNew_foldl_fst] at he
          have := (List.mem_filter.1 he).1
          rw [mem_firstOccurrences] at this
          exact this
        · simp only [List.flatMap_cons, List.foldl_append, groupCandidates]
          rw [hp, addNew_foldl_shift, hfold]

theorem resolveGroups_isSome_iff (containerID : GoString) (info : ContainerJSON)
    (envs labels : List (GoString × GoString)) (groups : List (GoString × List GoString))
    (st : List ContainerInfo × List GoString) :
    (resolveGroups containerID info envs labels groups st).isSome ↔
      ∀ g ∈ groups, (groupLabels info labels g.1).isSome ∧ pathsInRange info g.2 := by
  induction groups generalizing st with
  | nil => simp [resolveGroups]
  | cons g groups ih =>
    obtain ⟨idx, paths⟩ := g
    unfold resolveGroups
    simp only [List.forall_mem_cons]
    cases hl : groupLabels info labels idx with
    | none => simp
    | some lbs =>
      cases hp : resolvePaths info paths ([], st.2) with
      | none =>
        simp only [Option.isSome_none, Bool.false_eq_true, Option.isSome_some, true_and,
          false_iff, not_and]
        intro hr
        rw [resolvePaths_of_inRange info paths _ hr] at hp
        exact absurd hp (by simp)
      | some st1 =>
        have hr := resolvePaths_inRange info paths _ _ hp
        simp only [Option.isSome_some, true_and, hr, ih]

theorem getContainerInfo_some
    (rangeOrder : List (GoString × List GoString) → List (GoString × List GoString))
    (containerID : GoString) (info : ContainerJSON) (rs : List ContainerInfo)
    (h : getContainerInfo rangeOrder containerID info = some rs) :
    ∃ rs0, List.Forall₂
        (recordOfGroup containerID info (extractEnv info.ConfigEnv).envs (mergedLabels info))
        (rangeOrder (extractEnv info.ConfigEnv).paths) rs0 ∧
      rs0.flatMap (fun r => r.LogPath) =
        firstOccurrences
          ((rangeOrder (extractEnv info.ConfigEnv).paths).flatMap (groupCandidates info)) ∧
      ((rs0 = [] ∧ rs = [emptyContainerInfo]) ∨ (rs0 ≠ [] ∧ rs = rs0)) := by
  unfold getContainerInfo at h
  simp only [] at h
  cases hg : resolveGroups containerID info (extractEnv info.ConfigEnv).envs
      (info.ConfigLabels.foldl kubernetesLabelStep (extractEnv info.ConfigEnv).labels)
      (rangeOrder (extractEnv info.ConfigEnv).paths) ([], []) with
  | none => simp [hg] at h
  | some st =>
    obtain ⟨cs, seen⟩ := st
    simp only [hg] at h
    obtain ⟨rs0, hcs, hall, hfold⟩ := resolveGroups_some _ _ _ _ _ _ _ _ _ hg
    simp only [List.nil_append] at hcs
    subst hcs
    refine ⟨cs, hall, ?_, ?_⟩
    · have := congrArg Prod.fst hfold
      rw [addNew_foldl_fst] at this
      simpa using this.symm
    · by_cases hc : cs = []
      · subst hc
        simp only [List.length_nil, if_true, List.nil_append, Option.some.injEq] at h
        exact Or.inl ⟨rfl, h.symm⟩
      · have : cs.length ≠ 0 := fun e => hc (List.length_eq_zero.1 e)
        simp only [this, if_false, Option.some.injEq] at h
        exact Or.inr ⟨hc, h.symm⟩

theorem getContainerInfo_isSome_iff
    (rangeOrder : List (GoString × List GoString) → List (GoString × List GoString))
    (containerID : GoString) (info : ContainerJSON) :
    (getContainerInfo rangeOrder containerID info).isSome ↔
      ∀ g ∈ rangeOrder (extractEnv info.ConfigEnv).paths,
        (groupLabels info (mergedLabels info) g.1).isSome ∧ pathsInRange info g.2 := by
  rw [← resolveGroups_isSome_iff containerID info (extractEnv info.ConfigEnv).envs
    (mergedLabels info) _ ([], [])]
  unfold getContainerInfo mergedLabels
  simp only []
  cases resolveGroups containerID info (extractEnv info.ConfigEnv).envs
      (info.ConfigLabels.foldl kubernetesLabelStep (extractEnv info.ConfigEnv).labels)
      (rangeOrder (extractEnv info.ConfigEnv).paths) ([], []) with
  | none => simp
  | some st =>
    obtain ⟨cs, seen⟩ := st
    simp only [Option.isSome_some]
    split <;> simp

theorem groupLabels_isSome (info : ContainerJSON) (labels : List (GoString × GoString))
    (idx : GoString) (hname : info.Name ≠ []) : (groupLabels info labels idx).isSome := by
  have h1 : 1 ≤ info.Name.length := by
    cases hn : info.Name with
    | nil => exact absurd hn hname
    | cons a l => simp
  unfold groupLabels goSliceFrom
  simp only [h1, if_true]
  split
  · split <;> simp
  · simp

/-! ## The length of a cleaned path -/

theorem length_intercalate_slash (l : List GoString) (h : l ≠ []) :
    (['/'].intercalate l).length + 1 = elemsSize l := by
  induction l with
  | nil => exact absurd rfl h
  | cons x l ih =>
    cases l with
    | nil => simp [List.intercalate, elemsSize]
    | cons y l =>
      have := ih (by simp)
      simp only [List.intercalate, List.intersperse_cons_cons, List.flatten_cons,
        List.length_append, elemsSize, List.map_cons, List.sum_cons, List.length_cons,
        List.length_nil] at this ⊢
      omega

theorem elemsSize_cleanStep (rooted : Bool) (stack : List GoString) (e : GoString) :
    elemsSize (cleanStep rooted stack e) ≤ elemsSize stack + (e.length + 1) := by
  unfold cleanStep
  split
  · omega
  · split
    · cases stack with
      | nil =>
        cases rooted <;> simp [elemsSize]
      | cons top rest =>
        simp only []
        split
        · simp only [elemsSize, List.map_cons, List.sum_cons]
          omega
        · simp only [elemsSize, List.map_cons, List.sum_cons]
          omega
    · simp only [elemsSize, List.map_cons, List.sum_cons]
      omega

theorem elemsSize_cleanStep_foldl (rooted : Bool) (elems stack : List GoString) :
    elemsSize (elems.foldl (cleanStep rooted) stack) ≤ elemsSize stack + elemsSize elems := by
  induction elems generalizing stack with
  | nil => simp [elemsSize]
  | cons e elems ih =>
    simp only [List.foldl_cons]
    have h1 := ih (cleanStep rooted stack e)
    have h2 := elemsSize_cleanStep rooted stack e
    simp only [elemsSize, List.map_cons, List.sum_cons] at h1 h2 ⊢
    omega

theorem elemsSize_reverse (l : List GoString) : elemsSize l.reverse = elemsSize l := by
  unfold elemsSize
  rw [List.map_reverse, List.sum_reverse]

theorem length_add_one_eq_elemsSize_splitOn (q : GoString) :
    q.length + 1 = elemsSize (q.splitOn '/') := by
  have h := length_intercalate_slash (q.splitOn '/') (List.splitOnP_ne_nil _ _)
  rw [List.intercalate_splitOn] at h
  exact h

theorem length_pathClean_le (q : GoString) (h : q ≠ []) : (pathClean q).length ≤ q.length := by
  have hpos : 1 ≤ q.length := by
    cases q with
    | nil => exact absurd rfl h
    | cons c q => simp
  unfold pathClean
  rw [if_neg h]
  simp only []
  by_cases hr : q.head? = some '/'
  · simp only [hr, decide_True, if_true]
    cases q with
    | nil => exact absurd rfl h
    | cons c q =>
      simp only [List.head?_cons, Option.some.injEq] at hr
      subst hr
      have hsplit : ('/' :: q).splitOn '/' = [] :: q.splitOn '/' := by
        simp [List.splitOn]
      rw [hsplit]
      simp only [List.foldl_cons]
      have e1 : cleanStep true [] [] = [] := by decide
      rw [e1]
      have hsz := elemsSize_cleanStep_foldl true (q.splitOn '/') []
      have hq := length_add_one_eq_elemsSize_splitOn q
      by_cases hst : (q.splitOn '/').foldl (cleanStep true) [] = []
      · simp [hst, List.intercalate]
      · have hrev : ((q.splitOn '/').foldl (cleanStep true) []).reverse ≠ [] := by
          simpa using hst
        have := length_intercalate_slash _ hrev
        rw [elemsSize_reverse] at this
        simp only [List.length_cons]
        simp only [elemsSize, List.map_nil, List.sum_nil, Nat.zero_add] at hsz
        simp only [elemsSize] at this hq
        omega
  · simp only [hr, decide_False, Bool.false_eq_true, if_false]
    have hsz := elemsSize_cleanStep_foldl false (q.splitOn '/') []
    have hq := length_add_one_eq_elemsSize_splitOn q
    split
    · simpa using hpos
    · rename_i hst
      have := length_intercalate_slash _ hst
      rw [elemsSize_reverse] at this
      simp only [elemsSize, List.map_nil, List.sum_nil, Nat.zero_add] at hsz
      simp only [elemsSize] at this hq
      omega

theorem length_filepathDir_le (p : GoString) (h : p ≠ []) :
    (filepathDir p).length ≤ p.length := by
  have hpos : 1 ≤ p.length := by
    cases p with
    | nil => exact absurd rfl h
    | cons c p => simp
  have hq : ((p.reverse.dropWhile (fun ch => ch != '/')).reverse).length ≤ p.length := by
    rw [List.length_reverse]
    have := (List.dropWhile_sublist (fun ch => ch != '/') (l := p.reverse)).length_le
    simpa using this
  unfold filepathDir
  by_cases hnil : (p.reverse.dropWhile (fun ch => ch != '/')).reverse = []
  · rw [hnil]
    simpa [pathClean] using hpos
  · exact (length_pathClean_le _ hnil).trans hq

/-- Every slice `p[len(m.Destination):]` of a non-empty declared path is in range: the
parent directory of `p` is not longer than `p`. -/
theorem sliceInRange_of_ne_nil (mounts : List MountPoint) (p : GoString) (h : p ≠ []) :
    sliceInRange mounts p := by
  intro m _ hm
  exact (List.IsPrefix.length_le hm).trans (length_filepathDir_le p h)

/-! ## Mount resolution (C1) -/

/-- C1. For a container whose parsed path groups are a single group holding one declared
path `p` other than `stdout`, `getContainerInfo` returns one record whose `LogPath` is
the list of `path.Join("/host", m.Source + p[len(m.Destination):])` over the mounts `m`
whose `Destination` is a textual prefix of `Dir(p)`, in mount-table order with the later
duplicates removed; it is empty when no mount matches.  The container name is not empty (Docker names start with `/`) and
the slices `p[len(m.Destination):]` of the statement are in range, which is so for every
non-empty `p` (`sliceInRange_of_ne_nil`). -/
theorem getContainerInfo_single_path
    (rangeOrder : List (GoString × List GoString) → List (GoString × List GoString))
    (hperm : ∀ m, (rangeOrder m).Perm m)
    (containerID : GoString) (info : ContainerJSON) (idx p : GoString)
    (hpaths : (extractEnv info.ConfigEnv).paths = [(idx, [p])])
    (hp : p ≠ stdout) (hname : info.Name ≠ []) (hslice : sliceInRange info.Mounts p) :
    ∃ r, getContainerInfo rangeOrder containerID info = some [r] ∧
      r.LogPath = firstOccurrences
        ((info.Mounts.filter (fun m => mountMatches m p)).map (fun m => mountCandidate m p)) ∧
      ((∀ m ∈ info.Mounts, ¬ mountMatches m p) → r.LogPath = []) := by
  have hro : rangeOrder (extractEnv info.ConfigEnv).paths = [(idx, [p])] := by
    have := hperm (extractEnv info.ConfigEnv).paths
    rw [hpaths] at this
    rw [hpaths]
    exact List.perm_singleton.1 this
  have hsome : (getContainerInfo rangeOrder containerID info).isSome := by
    rw [getContainerInfo_isSome_iff, hro]
    intro g hg
    rw [List.mem_singleton] at hg
    subst hg
    refine ⟨groupLabels_isSome info _ _ hname, ?_⟩
    intro q hq _
    rw [List.mem_singleton] at hq
    subst hq
    exact hslice
  obtain ⟨rs, hrs⟩ := Option.isSome_iff_exists.1 hsome
  obtain ⟨rs0, hall, hcat, hcase⟩ := getContainerInfo_some _ _ _ _ hrs
  rw [hro] at hall hcat
  cases hall with
  | cons h1 h2 =>
    cases h2
    rename_i r
    rcases hcase with ⟨h0, _⟩ | ⟨_, h0⟩
    · exact absurd h0 (by simp)
    · subst h0
      have hlp : r.LogPath = firstOccurrences
          ((info.Mounts.filter (fun m => mountMatches m p)).map
            (fun m => mountCandidate m p)) := by
        simpa [groupCandidates, pathCandidates, hp] using hcat
      refine ⟨r, hrs, hlp, ?_⟩
      intro hnone
      have hf : info.Mounts.filter (fun m => mountMatches m p) = [] := by
        rw [List.filter_eq_nil_iff]
        intro m hm
        simpa using hnone m hm
      rw [hlp, hf]
      rfl

/-- C1, the example of the specification: the declared path `/var/log/app.log` with the
mount of `/data/app1` on `/var/log` resolves to `/host/data/app1/app.log`. -/
theorem getContainerInfo_single_path_witness :
    ∃ r, getContainerInfo id "0123456789ab".toList
        { Name := "/app".toList, LogPath := "/var/lib/docker/c.log".toList,
          ConfigEnv := ["CONVEYOR_PATH=/var/log/app.log".toList], ConfigLabels := [],
          Mounts := [⟨"/data/app1".toList, "/var/log".toList⟩] } = some [r] ∧
      r.LogPath = ["/host/data/app1/app.log".toList] ∧
      ((∀ m ∈ [(⟨"/data/app1".toList, "/var/log".toList⟩ : MountPoint)],
          ¬ mountMatches m "/var/log/app.log".toList) → r.LogPath = []) :=
  getContainerInfo_single_path id (fun _ => List.Perm.refl _) "0123456789ab".toList
    { Name := "/app".toList, LogPath := "/var/lib/docker/c.log".toList,
      ConfigEnv := ["CONVEYOR_PATH=/var/log/app.log".toList], ConfigLabels := [],
      Mounts := [⟨"/data/app1".toList, "/var/log".toList⟩] }
    noneIndex "/var/log/app.log".toList (by decide) (by decide) (by decide) (by decide)

/-! ## Deduplication of `LogPath` (C6) -/

/-- C6. Whatever the environment, the mount table, the runtime log path and the order of
the groups, the concatenation of the `LogPath` lists of the records emitted for one
container has no string twice; in particular no `LogPath` has two equal entries. -/
theorem getContainerInfo_logPath_nodup
    (rangeOrder : List (GoString × List GoString) → List (GoString × List GoString))
    (containerID : GoString) (info : ContainerJSON) (rs : List ContainerInfo)
    (h : getContainerInfo rangeOrder containerID info = some rs) :
    (rs.flatMap (fun r => r.LogPath)).Nodup ∧ ∀ r ∈ rs, r.LogPath.Nodup := by
  have hcat : (rs.flatMap (fun r => r.LogPath)).Nodup := by
    obtain ⟨rs0, _, hcat, hcase⟩ := getContainerInfo_some _ _ _ _ h
    rcases hcase with ⟨_, h0⟩ | ⟨_, h0⟩
    · subst h0
      simp [emptyContainerInfo]
    · subst h0
      rw [hcat]
      exact nodup_firstOccurrences _
  refine ⟨hcat, fun r hr => ?_⟩
  rw [List.flatMap, List.nodup_flatten] at hcat
  exact hcat.1 _ (List.mem_map_of_mem _ hr)

/-- C6 on a container whose runtime log file and declared path `/var/log/app.log` are the
same host file: `stdout` and the explicit path give a single entry. -/
theorem getContainerInfo_logPath_nodup_witness :
    getContainerInfo id "0123456789ab".toList stdoutTwice = some [stdoutTwiceRecord] ∧
    ([stdoutTwiceRecord].flatMap (fun r => r.LogPath)).Nodup ∧
    ∀ r ∈ [stdoutTwiceRecord], r.LogPath.Nodup :=
  ⟨by decide,
   getContainerInfo_logPath_nodup id "0123456789ab".toList stdoutTwice [stdoutTwiceRecord]
     (by decide)⟩

/-! ## Ownership (C2) -/

theorem forall₂_exists_left {α β : Type} {R : α → β → Prop} {l₁ : List α} {l₂ : List β}
    (h : List.Forall₂ R l₁ l₂) : ∀ b ∈ l₂, ∃ a ∈ l₁, R a b := by
  induction h with
  | nil => intro b hb; simp at hb
  | cons hab _ ih =>
    intro b hb
    rcases List.mem_cons.1 hb with rfl | hb
    · exact ⟨_, List.mem_cons_self _ _, hab⟩
    · obtain ⟨a, ha, hr⟩ := ih b hb
      exact ⟨a, List.mem_cons_of_mem _ ha, hr⟩

theorem rangeOrder_eq_nil_iff
    (rangeOrder : List (GoString × List GoString) → List (GoString × List GoString))
    (hperm : ∀ m, (rangeOrder m).Perm m) (m : List (GoString × List GoString)) :
    rangeOrder m = [] ↔ m = [] := by
  constructor
  · intro h
    have := hperm m
    rw [h] at this
    exact this.symm.eq_nil
  · intro h
    subst h
    exact (hperm []).eq_nil

/-- C2 fails on a container without `CONVEYOR_PATH`: its parsed `CONVEYOR_ENABLED` is
`true` and its parsed `CONVEYOR_NAME` is the instance name `main`, yet the one record
emitted for it is the empty `ContainerInfo`, which `isNeedLog` rejects. -/
theorem isNeedLog_without_path_counterexample :
    getContainerInfo id "0123456789ab".toList enabledWithoutPath = some [emptyContainerInfo] ∧
    isNeedLog "main".toList emptyContainerInfo = false ∧
    mapGet (extractEnv enabledWithoutPath.ConfigEnv).envs envLogEnabled = "true".toList ∧
    mapGet (extractEnv enabledWithoutPath.ConfigEnv).envs envLogName = "main".toList := by
  decide

/-- C2, amended. For a container that declares at least one path group, every record the
resolver emits satisfies `isNeedLog` exactly when the parsed `CONVEYOR_ENABLED` is `true`
and the parsed `CONVEYOR_NAME` (empty when absent) is the instance name.  For a container
without path groups the resolver emits exactly one record, the empty `ContainerInfo`,
and `isNeedLog` rejects it for every instance name. -/
theorem isNeedLog_resolved
    (rangeOrder : List (GoString × List GoString) → List (GoString × List GoString))
    (hperm : ∀ m, (rangeOrder m).Perm m)
    (name containerID : GoString) (info : ContainerJSON) :
    ((extractEnv info.ConfigEnv).paths ≠ [] →
      ∀ rs, getContainerInfo rangeOrder containerID info = some rs → ∀ r ∈ rs,
        (isNeedLog name r = true ↔
          mapGet (extractEnv info.ConfigEnv).envs envLogEnabled = "true".toList ∧
          mapGet (extractEnv info.ConfigEnv).envs envLogName = name)) ∧
    ((extractEnv info.ConfigEnv).paths = [] →
      getContainerInfo rangeOrder containerID info = some [emptyContainerInfo] ∧
      isNeedLog name emptyContainerInfo = false) := by
  constructor
  · intro hne rs hrs r hr
    obtain ⟨rs0, hall, _, hcase⟩ := getContainerInfo_some _ _ _ _ hrs
    rcases hcase with ⟨h0, _⟩ | ⟨_, h0⟩
    · subst h0
      rw [List.forall₂_nil_right_iff] at hall
      exact absurd ((rangeOrder_eq_nil_iff rangeOrder hperm _).1 hall) hne
    · subst h0
      obtain ⟨g, _, hg⟩ := forall₂_exists_left hall r hr
      simp [isNeedLog, hg.2.2.1]
  · intro hnil
    have hro := (rangeOrder_eq_nil_iff rangeOrder hperm _).2 hnil
    have hsome : (getContainerInfo rangeOrder containerID info).isSome := by
      rw [getContainerInfo_isSome_iff, hro]
      intro g hg
      simp at hg
    obtain ⟨rs, hrs⟩ := Option.isSome_iff_exists.1 hsome
    obtain ⟨rs0, hall, _, hcase⟩ := getContainerInfo_some _ _ _ _ hrs
    rw [hro] at hall
    cases hall
    rcases hcase with ⟨_, h0⟩ | ⟨h0, _⟩
    · subst h0
      exact ⟨hrs, by simp [isNeedLog, emptyContainerInfo, mapGet]⟩
    · exact absurd rfl h0

/-- C2, amended, on scenario 1 of the specification and on the same container without its
`CONVEYOR_PATH`. -/
theorem isNeedLog_resolved_witness :
    getContainerInfo id "0123456789ab".toList enabledWithStdout =
      some [enabledWithStdoutRecord] ∧
    (isNeedLog "main".toList enabledWithStdoutRecord = true ↔
      mapGet (extractEnv enabledWithStdout.ConfigEnv).envs envLogEnabled = "true".toList ∧
      mapGet (extractEnv enabledWithStdout.ConfigEnv).envs envLogName = "main".toList) ∧
    getContainerInfo id "0123456789ab".toList enabledWithoutPath = some [emptyContainerInfo] ∧
    isNeedLog "main".toList emptyContainerInfo = false :=
  ⟨by decide,
   (isNeedLog_resolved id (fun _ => List.Perm.refl _) "main".toList "0123456789ab".toList
      enabledWithStdout).1 (by decide) [enabledWithStdoutRecord] (by decide)
      enabledWithStdoutRecord (List.mem_singleton.2 rfl),
   (isNeedLog_resolved id (fun _ => List.Perm.refl _) "main".toList "0123456789ab".toList
      enabledWithoutPath).2 (by decide)⟩

/-! ## The index label (C3) -/

theorem kubernetesLabels_eq_container_name (k : GoString) :
    mapGet KubernetesLabels k = "kubernetes_container_name".toList ↔
      k = "io.kubernetes.container.name".toList := by
  constructor
  · intro h
    by_contra hk
    by_cases h1 : k = "io.kubernetes.pod.namespace".toList
    · subst h1; revert h; decide
    · by_cases h2 : k = "io.kubernetes.pod.name".toList
      · subst h2; revert h; decide
      · have e1 : (k == "io.kubernetes.pod.namespace".toList) = false := by simpa using h1
        have e2 : (k == "io.kubernetes.pod.name".toList) = false := by simpa using h2
        have e3 : (k == "io.kubernetes.container.name".toList) = false := by simpa using hk
        simp only [mapGet, KubernetesLabels, List.lookup, e1, e2, e3, Option.getD_none] at h
        revert h; decide
  · intro h
    subst h
    decide

theorem kubernetesLabelStep_other (labels : List (GoString × GoString))
    (kv : GoString × GoString) (h : kv.1 ≠ "io.kubernetes.container.name".toList) :
    mapGet (kubernetesLabelStep labels kv) "kubernetes_container_name".toList =
      mapGet labels "kubernetes_container_name".toList := by
  unfold kubernetesLabelStep
  split
  · rw [mapGet_mapSet]
    have : ¬ "kubernetes_container_name".toList = mapGet KubernetesLabels kv.1 :=
      fun e => h ((kubernetesLabels_eq_container_name kv.1).1 e.symm)
    simp only [this, if_false]
  · rfl

theorem kubernetesLabels_foldl_other (cfg : List (GoString × GoString))
    (labels : List (GoString × GoString))
    (h : ∀ kv ∈ cfg, kv.1 ≠ "io.kubernetes.container.name".toList) :
    mapGet (cfg.foldl kubernetesLabelStep labels) "kubernetes_container_name".toList =
      mapGet labels "kubernetes_container_name".toList := by
  induction cfg generalizing labels with
  | nil => rfl
  | cons kv cfg ih =>
    simp only [List.foldl_cons]
    rw [ih _ (fun x hx => h x (List.mem_cons_of_mem _ hx)),
      kubernetesLabelStep_other _ _ (h kv (List.mem_cons_self _ _))]

theorem kubernetesLabels_foldl_present (cfg : List (GoString × GoString))
    (labels : List (GoString × GoString)) (v : GoString)
    (hnodup : (cfg.map Prod.fst).Nodup)
    (hv : ("io.kubernetes.container.name".toList, v) ∈ cfg) :
    mapGet (cfg.foldl kubernetesLabelStep labels) "kubernetes_container_name".toList = v := by
  induction cfg generalizing labels with
  | nil => simp at hv
  | cons kv cfg ih =>
    simp only [List.map_cons, List.nodup_cons] at hnodup
    simp only [List.foldl_cons]
    rcases List.mem_cons.1 hv with rfl | hv
    · rw [kubernetesLabels_foldl_other]
      · unfold kubernetesLabelStep
        have e : mapGet KubernetesLabels "io.kubernetes.container.name".toList =
            "kubernetes_container_name".toList := by decide
        simp only [e]
        rw [if_pos (by decide), mapGet_mapSet, if_pos rfl]
      · intro x hx e
        have hmem := List.mem_map_of_mem Prod.fst hx
        rw [e] at hmem
        exact hnodup.1 hmem
    · exact ih _ hnodup.2 hv

/-- C3 fails on the default group of a container that has the label
`io.kubernetes.container.name`: the label value is `web`, but the record has no `index`
label at all. -/
theorem index_label_kubernetes_counterexample :
    getContainerInfo id "0123456789ab".toList kubernetesWithStdout =
      some [kubernetesWithStdoutRecord] ∧
    mapGet kubernetesWithStdout.ConfigLabels "io.kubernetes.container.name".toList =
      "web".toList ∧
    mapGet kubernetesWithStdoutRecord.Labels "index".toList ≠ "web".toList ∧
    kubernetesWithStdoutRecord.Labels.lookup "index".toList = none := by
  decide

/-- C3, amended. The records emitted for the path groups correspond one to one, in
order, to the groups, and for a group `g` and its record `r`: (ii) if `g` has an explicit
index then `Labels["index"]` is that index; (i) if `g` is the default group and the
merged labels hold no `kubernetes_container_name` then `Labels["index"]` is the container
name without its first byte, and if they hold one then the labels of `r` are the merged
labels unchanged, no `index` label being assigned.  The merged labels hold the value of
the container's `io.kubernetes.container.name` label as `kubernetes_container_name`
whenever the container has that label. -/
theorem index_label
    (rangeOrder : List (GoString × List GoString) → List (GoString × List GoString))
    (containerID : GoString) (info : ContainerJSON) (rs : List ContainerInfo)
    (h : getContainerInfo rangeOrder containerID info = some rs)
    (hne : rangeOrder (extractEnv info.ConfigEnv).paths ≠ []) :
    List.Forall₂ (fun g r =>
        (g.1 ≠ noneIndex → mapGet r.Labels "index".toList = g.1) ∧
        (g.1 = noneIndex →
          mapGet (mergedLabels info) "kubernetes_container_name".toList = [] →
          mapGet r.Labels "index".toList = info.Name.drop 1) ∧
        (g.1 = noneIndex →
          mapGet (mergedLabels info) "kubernetes_container_name".toList ≠ [] →
          r.Labels = mergedLabels info))
      (rangeOrder (extractEnv info.ConfigEnv).paths) rs ∧
    ∀ v, (info.ConfigLabels.map Prod.fst).Nodup →
      ("io.kubernetes.container.name".toList, v) ∈ info.ConfigLabels →
      mapGet (mergedLabels info) "kubernetes_container_name".toList = v := by
  refine ⟨?_, fun v hn hv => kubernetesLabels_foldl_present _ _ v hn hv⟩
  obtain ⟨rs0, hall, _, hcase⟩ := getContainerInfo_some _ _ _ _ h
  rcases hcase with ⟨h0, _⟩ | ⟨_, h0⟩
  · subst h0
    rw [List.forall₂_nil_right_iff] at hall
    exact absurd hall hne
  · subst h0
    refine hall.imp ?_
    intro g r hgr
    have hl := hgr.2.2.2.1
    unfold groupLabels copyLabels goSliceFrom at hl
    refine ⟨?_, ?_, ?_⟩
    · intro hg
      simp only [hg, if_false, Option.some.injEq] at hl
      rw [← hl, mapGet_mapSet, if_pos rfl]
    · intro hg hlb
      simp only [hg, if_true, hlb] at hl
      by_cases hlen : 1 ≤ info.Name.length
      · simp only [hlen, if_true, Option.map_some', Option.some.injEq] at hl
        rw [← hl, mapGet_mapSet, if_pos rfl]
      · simp [hlen] at hl
    · intro hg hlb
      simp only [hg, if_true, hlb, if_false, Option.some.injEq] at hl
      exact hl.symm

/-- C3, amended, on scenario 3 of the specification: the two records carry the index
labels `web` and `db`. -/
theorem index_label_witness :
    getContainerInfo id "0123456789ab".toList webAndDb = some [webRecord, dbRecord] ∧
    (extractEnv webAndDb.ConfigEnv).paths =
      [("web".toList, ["/var/log/web.log".toList]), ("db".toList, ["/var/log/db.log".toList])] ∧
    mapGet webRecord.Labels "index".toList = "web".toList ∧
    mapGet dbRecord.Labels "index".toList = "db".toList ∧
    List.Forall₂ (fun g r =>
        (g.1 ≠ noneIndex → mapGet r.Labels "index".toList = g.1) ∧
        (g.1 = noneIndex →
          mapGet (mergedLabels webAndDb) "kubernetes_container_name".toList = [] →
          mapGet r.Labels "index".toList = webAndDb.Name.drop 1) ∧
        (g.1 = noneIndex →
          mapGet (mergedLabels webAndDb) "kubernetes_container_name".toList ≠ [] →
          r.Labels = mergedLabels webAndDb))
      (id (extractEnv webAndDb.ConfigEnv).paths) [webRecord, dbRecord] :=
  ⟨by decide, by decide, by decide, by decide,
   (index_label id "0123456789ab".toList webAndDb [webRecord, dbRecord] (by decide)
      (by decide)).1⟩

/-! ## The path directive, ungrouped form (C4) -/

/-- C4 at the input `CONVEYOR_PATH=/a/x.log,/b/y.log`: the ungrouped form is not split at
the comma, the default group receives the single entry `/a/x.log,/b/y.log`, while the
explicit form `idx:/a/x.log,/b/y.log` gives the group `idx` the two paths. -/
theorem extractEnv_ungrouped_comma :
    (extractEnv ["CONVEYOR_PATH=/a/x.log,/b/y.log".toList]).paths =
      [("_none_index".toList, ["/a/x.log,/b/y.log".toList])] ∧
    (extractEnv ["CONVEYOR_PATH=idx:/a/x.log,/b/y.log".toList]).paths =
      [("idx".toList, ["/a/x.log".toList, "/b/y.log".toList])] := by
  decide

/-! ## The field directive (C5) -/

/-- C5 fails on the documented syntax: no field of `CONVEYOR_FIELD=app:web,env:prod`
holds a `=`, so `splitEnv` yields no key and no value and no label is added. -/
theorem extractEnv_field_colon_counterexample :
    (extractEnv ["CONVEYOR_FIELD=app:web,env:prod".toList]).labels = [] ∧
    mapGet (extractEnv ["CONVEYOR_FIELD=app:web,env:prod".toList]).labels "app".toList ≠
      "web".toList := by
  decide

theorem stringsSplitN2_cut (a b : GoString) (sep : Char) (h : sep ∉ a) :
    stringsSplitN2 (a ++ sep :: b) sep = [a, b] := by
  have key : ∀ (a : GoString), sep ∉ a →
      (a ++ sep :: b).span (fun ch => ch != sep) = (a, sep :: b) := by
    intro a
    induction a with
    | nil => intro _; simp [List.span_eq_take_drop, List.takeWhile, List.dropWhile]
    | cons c a ih =>
      intro hc
      simp only [List.mem_cons, not_or] at hc
      have hne : (c != sep) = true := by simpa using fun e => hc.1 e.symm
      have := ih hc.2
      rw [List.span_eq_take_drop] at this ⊢
      simp only [List.cons_append, List.takeWhile_cons, List.dropWhile_cons, hne, if_true]
      simp only [Prod.mk.injEq] at this ⊢
      exact ⟨by rw [this.1], this.2⟩
  unfold stringsSplitN2
  rw [key a h]

theorem stringsSplitN2_none (a : GoString) (sep : Char) (h : sep ∉ a) :
    stringsSplitN2 a sep = [a] := by
  have key : ∀ (a : GoString), sep ∉ a → a.span (fun ch => ch != sep) = (a, []) := by
    intro a
    induction a with
    | nil => intro _; rfl
    | cons c a ih =>
      intro hc
      simp only [List.mem_cons, not_or] at hc
      have hne : (c != sep) = true := by simpa using fun e => hc.1 e.symm
      have := ih hc.2
      rw [List.span_eq_take_drop] at this ⊢
      simp only [List.takeWhile_cons, List.dropWhile_cons, hne, if_true]
      simp only [Prod.mk.injEq] at this ⊢
      exact ⟨by rw [this.1], this.2⟩
  unfold stringsSplitN2
  rw [key a h]

theorem extractField_render (labels : List (GoString × GoString)) (it : FieldItem)
    (h : it.wellFormed) : extractField labels it.render = it.apply labels := by
  cases it with
  | pair k v =>
    obtain ⟨hk, hv, hek, _, _, htk, htv⟩ := h
    simp only [extractField, splitEnv, FieldItem.render, stringsSplitN2_cut k v '=' hek, htk, htv,
      FieldItem.apply]
    rw [if_pos ⟨hk, hv⟩]
  | missingKey v =>
    have := stringsSplitN2_cut [] v '=' (by simp)
    simp only [List.nil_append] at this
    simp [extractField, splitEnv, FieldItem.render, this, FieldItem.apply, trimSpace]
  | missingValue k =>
    simp [extractField, splitEnv, FieldItem.render, stringsSplitN2_cut k [] '=' h.1,
      FieldItem.apply, trimSpace]
  | bare s =>
    simp [extractField, splitEnv, FieldItem.render, stringsSplitN2_none s '=' h.1,
      FieldItem.apply]

theorem render_no_comma (it : FieldItem) (h : it.wellFormed) : ',' ∉ it.render := by
  cases it with
  | pair k v =>
    obtain ⟨_, _, _, hk, hv, _, _⟩ := h
    simp only [FieldItem.render, List.mem_append, List.mem_cons, not_or]
    exact ⟨hk, by decide, hv⟩
  | missingKey v =>
    simp only [FieldItem.render, List.mem_cons, not_or]
    exact ⟨by decide, h⟩
  | missingValue k =>
    simp only [FieldItem.render, List.mem_append, List.mem_singleton, not_or]
    exact ⟨h.2, by decide⟩
  | bare s => exact h.2

theorem extractField_foldl_render (items : List FieldItem)
    (labels : List (GoString × GoString)) (h : ∀ it ∈ items, it.wellFormed) :
    (items.map FieldItem.render).foldl extractField labels = items.foldl FieldItem.apply labels := by
  induction items generalizing labels with
  | nil => rfl
  | cons it items ih =>
    simp only [List.map_cons, List.foldl_cons]
    rw [extractField_render labels it (h it (List.mem_cons_self _ _))]
    exact ih _ (fun x hx => h x (List.mem_cons_of_mem _ hx))

theorem stringsSplit_fieldValue (items : List FieldItem) (h : ∀ it ∈ items, it.wellFormed)
    (labels : List (GoString × GoString)) :
    (stringsSplit (fieldValue items) ',').foldl extractField labels =
      (items.map FieldItem.render).foldl extractField labels := by
  by_cases hne : items = []
  · subst hne
    simp [stringsSplit, fieldValue, List.splitOn, List.splitOnP, List.splitOnP.go, extractField,
      splitEnv, stringsSplitN2, List.span, List.span.loop]
  · unfold stringsSplit fieldValue
    rw [List.splitOn_intercalate]
    · intro l hl
      obtain ⟨it, hit, rfl⟩ := List.mem_map.1 hl
      exact render_no_comma it (h it hit)
    · simpa using hne

theorem extractEnvStep_labels_other (st : EnvInfo) (e : GoString)
    (h : (splitEnv e).1 ≠ envLogField) : (extractEnvStep st e).labels = st.labels := by
  unfold extractEnvStep
  simp only [h, if_false]
  split
  · rfl
  · split <;> rfl

theorem extractEnv_foldl_labels_other (es : List GoString) (st : EnvInfo)
    (h : ∀ e ∈ es, (splitEnv e).1 ≠ envLogField) :
    (es.foldl extractEnvStep st).labels = st.labels := by
  induction es generalizing st with
  | nil => rfl
  | cons e es ih =>
    simp only [List.foldl_cons]
    rw [ih _ (fun x hx => h x (List.mem_cons_of_mem _ hx)),
      extractEnvStep_labels_other _ _ (h e (List.mem_cons_self _ _))]

theorem extractEnvStep_field (st : EnvInfo) (value : GoString)
    (htrim : trimSpace value = value) :
    (extractEnvStep st (envLogField ++ '=' :: value)).labels =
      (stringsSplit value ',').foldl extractField st.labels := by
  have hsplit : splitEnv (envLogField ++ '=' :: value) = (envLogField, value) := by
    have hk : trimSpace envLogField = envLogField := by decide
    simp only [splitEnv, stringsSplitN2_cut envLogField value '=' (by decide), htrim, hk]
  have hne : ¬ (envLogField = [] ∧ value = []) := fun h => absurd h.1 (by decide)
  unfold extractEnvStep
  simp only [hsplit, hne, if_false, if_true]

/-- C5, amended: the fields of `CONVEYOR_FIELD` are read as `key=value`, split at their
first `=`.  For an environment with one `CONVEYOR_FIELD` entry whose value, without white
space at its ends, is a comma-separated list of fields `k=v` (key and value not empty,
without white space at their ends), `=v`, `k=` or a text without `=`, `extractEnv`
returns the labels obtained
by setting, in order, each key of a pair `k=v` to its value, a later pair overriding an
earlier one with the same key; a field without key, without value or without `=` (such
as `app:web`) adds nothing. -/
theorem extractEnv_field_labels (pre post : List GoString) (items : List FieldItem)
    (hother : ∀ e ∈ pre ++ post, (splitEnv e).1 ≠ envLogField)
    (hitems : ∀ it ∈ items, it.wellFormed)
    (htrim : trimSpace (fieldValue items) = fieldValue items) :
    (extractEnv (pre ++ [envLogField ++ '=' :: fieldValue items] ++ post)).labels =
      items.foldl FieldItem.apply [] := by
  unfold extractEnv
  rw [List.foldl_append, List.foldl_append]
  rw [extractEnv_foldl_labels_other post _
    (fun e he => hother e (List.mem_append_right _ he))]
  simp only [List.foldl_cons, List.foldl_nil]
  rw [extractEnvStep_field _ _ htrim, stringsSplit_fieldValue items hitems,
    extractField_foldl_render items _ hitems,
    extractEnv_foldl_labels_other pre _ (fun e he => hother e (List.mem_append_left _ he))]

/-- C5, amended, on `CONVEYOR_FIELD=app=web,env=prod,app:web,app=api` among other
variables: the labels are `app: api` and `env: prod`. -/
theorem extractEnv_field_labels_witness :
    (extractEnv ["CONVEYOR_ENABLED=true".toList,
        "CONVEYOR_FIELD=app=web,env=prod,app:web,app=api".toList,
        "CONVEYOR_PATH=stdout".toList]).labels =
      [("app".toList, "api".toList), ("env".toList, "prod".toList)] :=
  extractEnv_field_labels ["CONVEYOR_ENABLED=true".toList] ["CONVEYOR_PATH=stdout".toList]
    [.pair "app".toList "web".toList, .pair "env".toList "prod".toList,
     .bare "app:web".toList, .pair "app".toList "api".toList]
    (by decide) (by decide) (by decide)

/-! ## The owned container set (C7) -/

/-- C7 fails for a `start` event followed by a `restart` event of the same container:
`processEvent` calls `Create` for the same record twice and the owned set then holds two
entries with the same `ID` and the same group index. -/
theorem owned_set_start_restart_counterexample :
    processEvent "main".toList id eventStart "0123456789ab".toList enabledWithStdout
        { containers := [] } = some { containers := [enabledWithStdoutRecord] } ∧
    processEvent "main".toList id eventRestart "0123456789ab".toList enabledWithStdout
        { containers := [enabledWithStdoutRecord] } =
      some { containers := [enabledWithStdoutRecord, enabledWithStdoutRecord] } ∧
    ¬ noDuplicateGroup [enabledWithStdoutRecord, enabledWithStdoutRecord] := by
  decide

theorem noDuplicateGroup_append_singleton (cs : List ContainerInfo) (c : ContainerInfo) :
    noDuplicateGroup (cs ++ [c]) ↔ noDuplicateGroup cs ∧ ∀ x ∈ cs, ¬ sameGroup x c := by
  unfold noDuplicateGroup
  rw [List.pairwise_append]
  simp

theorem porterStep_noDuplicateGroup (p p' : FileBeatPorter) (op : PorterOp)
    (hinv : noDuplicateGroup p.containers) (hadm : opAdmissible p op)
    (hstep : porterStep p op = some p') : noDuplicateGroup p'.containers := by
  cases op with
  | list containers =>
    simp only [porterStep, FileBeatPorter.List, Option.some.injEq] at hstep
    subst hstep
    exact hadm
  | create container =>
    simp only [porterStep, FileBeatPorter.Create] at hstep
    split at hstep
    · exact absurd hstep (by simp)
    · simp only [Option.some.injEq] at hstep
      subst hstep
      exact (noDuplicateGroup_append_singleton _ _).2 ⟨hinv, hadm⟩
  | delete container =>
    simp only [porterStep, FileBeatPorter.Delete] at hstep
    split at hstep
    · exact absurd hstep (by simp)
    · simp only [Option.some.injEq] at hstep
      subst hstep
      exact List.Pairwise.filter _ hinv

theorem porterRun_noDuplicateGroup (ops : List PorterOp) (p p' : FileBeatPorter)
    (hinv : noDuplicateGroup p.containers) (hadm : runAdmissible ops p)
    (hrun : porterRun ops p = some p') : noDuplicateGroup p'.containers := by
  induction ops generalizing p with
  | nil =>
    simp only [porterRun, Option.some.injEq] at hrun
    subst hrun
    exact hinv
  | cons op ops ih =>
    unfold porterRun at hrun
    unfold runAdmissible at hadm
    cases hstep : porterStep p op with
    | none => simp [hstep] at hrun
    | some p1 =>
      simp only [hstep] at hrun hadm
      exact ih p1 (porterStep_noDuplicateGroup p p1 op hinv hadm.1 hstep) hadm.2 hrun

/-- C7, amended. Starting from the empty owned set, after any sequence of `List`,
`Create` and `Delete` calls in which every `List` receives a sequence without two entries
of the same `ID` and group index and every `Create` adds a record whose `ID` and group
index no entry of the owned set has at that moment, the owned set has no two entries with
the same `ID` and the same group index.  `Create` itself checks nothing: after it the
owned set is free of duplicates exactly when it was before and held no entry with the
`ID` and group index of the created record. -/
theorem owned_set_noDuplicateGroup (ops : List PorterOp) (p' : FileBeatPorter)
    (hadm : runAdmissible ops { containers := [] })
    (hrun : porterRun ops { containers := [] } = some p') :
    noDuplicateGroup p'.containers ∧
    ∀ (p q : FileBeatPorter) (c : ContainerInfo), p.Create c = some q →
      (noDuplicateGroup q.containers ↔
        noDuplicateGroup p.containers ∧ ∀ x ∈ p.containers, ¬ sameGroup x c) := by
  refine ⟨porterRun_noDuplicateGroup ops _ p' List.Pairwise.nil hadm hrun, ?_⟩
  intro p q c hc
  simp only [FileBeatPorter.Create] at hc
  split at hc
  · exact absurd hc (by simp)
  · simp only [Option.some.injEq] at hc
    subst hc
    exact noDuplicateGroup_append_singleton _ _

/-- C7, amended, on the run `Create`, `Delete`, `Create`, `Create` of the two records of
one container and a `List` of both. -/
theorem owned_set_noDuplicateGroup_witness :
    porterRun [.create webRecord, .delete webRecord, .create webRecord, .create dbRecord,
        .list [dbRecord, webRecord]] { containers := [] } =
      some { containers := [dbRecord, webRecord] } ∧
    noDuplicateGroup [dbRecord, webRecord] :=
  ⟨by decide,
   (owned_set_noDuplicateGroup
      [.create webRecord, .delete webRecord, .create webRecord, .create dbRecord,
        .list [dbRecord, webRecord]] { containers := [dbRecord, webRecord] }
      (by decide) (by decide)).1⟩

/-! ## The records of the groups, one by one -/

theorem addNew_foldl_snd_mem (xs : List GoString) (st : List GoString × List GoString)
    (y : GoString) : y ∈ (xs.foldl addNew st).2 ↔ y ∈ st.2 ∨ y ∈ xs := by
  induction xs generalizing st with
  | nil => simp
  | cons x xs ih =>
    simp only [List.foldl_cons, ih, List.mem_cons]
    by_cases h : x ∈ st.2
    · simp only [addNew, h, if_true]
      constructor
      · rintro (h1 | h1)
        · exact Or.inl h1
        · exact Or.inr (Or.inr h1)
      · rintro (h1 | h1 | h1)
        · exact Or.inl h1
        · exact Or.inl (h1 ▸ h)
        · exact Or.inr h1
    · simp only [addNew, h, if_false, List.mem_cons]
      tauto

theorem resolveGroups_expected (containerID : GoString) (info : ContainerJSON)
    (envs labels : List (GoString × GoString)) (groups : List (GoString × List GoString))
    (cs cs' : List ContainerInfo) (isExist seen' seen : List GoString)
    (h : resolveGroups containerID info envs labels groups (cs, isExist) = some (cs', seen'))
    (hseen : ∀ e, e ∈ isExist ↔ e ∈ seen) :
    cs' = cs ++ expectedRecords containerID info envs labels seen groups := by
  induction groups generalizing cs isExist seen with
  | nil =>
    simp only [resolveGroups, Option.some.injEq, Prod.mk.injEq] at h
    simp [expectedRecords, h.1]
  | cons g groups ih =>
    obtain ⟨idx, paths⟩ := g
    unfold resolveGroups at h
    cases hl : groupLabels info labels idx with
    | none => simp [hl] at h
    | some lbs =>
      simp only [hl] at h
      cases hp : resolvePaths info paths ([], isExist) with
      | none => simp [hp] at h
      | some st1 =>
        obtain ⟨lpath, isExist1⟩ := st1
        simp only [hp] at h
        have hr := resolvePaths_inRange info paths _ _ hp
        rw [resolvePaths_of_inRange info paths _ hr] at hp
        simp only [Option.some.injEq] at hp
        have hlp : lpath = (firstOccurrences (groupCandidates info (idx, paths))).filter
            (fun e => e ∉ seen) := by
          have h1 := congrArg Prod.fst hp
          rw [addNew_foldl_fst] at h1
          simp only [] at h1
          rw [← h1]
          unfold groupCandidates
          apply List.filter_congr
          intro e _
          simp only [hseen e]
        have hmem : ∀ e, e ∈ isExist1 ↔ e ∈ seen ++ groupCandidates info (idx, paths) := by
          intro e
          have h2 := congrArg Prod.snd hp
          simp only [] at h2
          rw [← h2, addNew_foldl_snd_mem, List.mem_append, hseen e]
          rfl
        have := ih _ _ _ h hmem
        rw [this, expectedRecords, hl, hlp]
        simp

theorem getContainerInfo_expected
    (rangeOrder : List (GoString × List GoString) → List (GoString × List GoString))
    (containerID : GoString) (info : ContainerJSON) (rs : List ContainerInfo)
    (h : getContainerInfo rangeOrder containerID info = some rs)
    (hne : rangeOrder (extractEnv info.ConfigEnv).paths ≠ []) :
    rs = expectedRecords containerID info (extractEnv info.ConfigEnv).envs (mergedLabels info)
      [] (rangeOrder (extractEnv info.ConfigEnv).paths) := by
  unfold getContainerInfo at h
  simp only [] at h
  cases hg : resolveGroups containerID info (extractEnv info.ConfigEnv).envs
      (info.ConfigLabels.foldl kubernetesLabelStep (extractEnv info.ConfigEnv).labels)
      (rangeOrder (extractEnv info.ConfigEnv).paths) ([], []) with
  | none => simp [hg] at h
  | some st =>
    obtain ⟨cs, seen⟩ := st
    simp only [hg] at h
    have hexp := resolveGroups_expected _ _ _ _ _ _ _ _ _ [] hg (fun _ => Iff.rfl)
    simp only [List.nil_append] at hexp
    have hc : cs.length ≠ 0 := by
      intro e
      rw [List.length_eq_zero] at e
      rw [e] at hexp
      cases hro : rangeOrder (extractEnv info.ConfigEnv).paths with
      | nil => exact hne hro
      | cons g gs =>
        rw [hro] at hexp
        simp [expectedRecords] at hexp
    simp only [hc, if_false, Option.some.injEq] at h
    rw [← h, hexp]
    rfl

theorem expectedRecords_getElem (containerID : GoString) (info : ContainerJSON)
    (envs labels : List (GoString × GoString)) (seen : List GoString)
    (pre post : List (GoString × List GoString)) (g : GoString × List GoString) :
    (expectedRecords containerID info envs labels seen (pre ++ g :: post))[pre.length]? =
      some { ID := containerID, Name := info.Name, Env := envs,
             Labels := (groupLabels info labels g.1).getD [],
             LogPath := (firstOccurrences (groupCandidates info g)).filter
               (fun e => e ∉ seen ++ pre.flatMap (groupCandidates info)) } := by
  induction pre generalizing seen with
  | nil => simp [expectedRecords]
  | cons g0 pre ih =>
    have := ih (seen ++ groupCandidates info g0)
    rw [List.append_assoc] at this
    simpa [expectedRecords] using this

theorem expectedRecords_of_noSharedPath (containerID : GoString) (info : ContainerJSON)
    (envs labels : List (GoString × GoString)) (seen : List GoString)
    (groups : List (GoString × List GoString))
    (hseen : ∀ g ∈ groups, ∀ e ∈ groupCandidates info g, e ∉ seen)
    (hshared : noSharedPath info groups) :
    expectedRecords containerID info envs labels seen groups =
      groups.map (fun g =>
        { ID := containerID, Name := info.Name, Env := envs,
          Labels := (groupLabels info labels g.1).getD [],
          LogPath := firstOccurrences (groupCandidates info g) }) := by
  induction groups generalizing seen with
  | nil => rfl
  | cons g groups ih =>
    unfold noSharedPath at hshared
    rw [List.pairwise_cons] at hshared
    simp only [expectedRecords, List.map_cons, List.cons.injEq, ContainerInfo.mk.injEq,
      true_and]
    constructor
    · rw [List.filter_eq_self]
      intro e he
      rw [mem_firstOccurrences] at he
      simpa using hseen g (List.mem_cons_self _ _) e he
    · apply ih
      · intro g' hg' e he hmem
        rcases List.mem_append.1 hmem with h1 | h1
        · exact hseen g' (List.mem_cons_of_mem _ hg') e he h1
        · exact hshared.1 g' hg' e h1 he
      · exact hshared.2

theorem exists_first_group (info : ContainerJSON) (c : GoString)
    (pre : List (GoString × List GoString))
    (h : c ∈ pre.flatMap (groupCandidates info)) :
    ∃ pre' g' post', pre = pre' ++ g' :: post' ∧ c ∈ groupCandidates info g' ∧
      c ∉ pre'.flatMap (groupCandidates info) := by
  induction pre with
  | nil => simp at h
  | cons g0 pre ih =>
    by_cases h0 : c ∈ groupCandidates info g0
    · exact ⟨[], g0, pre, rfl, h0, by simp⟩
    · simp only [List.flatMap_cons, List.mem_append, h0, false_or] at h
      obtain ⟨pre', g', post', hpre, hc, hnot⟩ := ih h
      refine ⟨g0 :: pre', g', post', by simp [hpre], hc, ?_⟩
      simp only [List.flatMap_cons, List.mem_append, not_or]
      exact ⟨h0, hnot⟩

/-- The record at the place of a group: it carries the labels of the group, and its
`LogPath` is the host paths of the group that no group visited earlier resolved to. -/
theorem getContainerInfo_record_at
    (rangeOrder : List (GoString × List GoString) → List (GoString × List GoString))
    (containerID : GoString) (info : ContainerJSON) (rs : List ContainerInfo)
    (h : getContainerInfo rangeOrder containerID info = some rs)
    (pre post : List (GoString × List GoString)) (g : GoString × List GoString)
    (hg : rangeOrder (extractEnv info.ConfigEnv).paths = pre ++ g :: post) :
    ∃ r, rs[pre.length]? = some r ∧
      groupLabels info (mergedLabels info) g.1 = some r.Labels ∧
      r.LogPath = (firstOccurrences (groupCandidates info g)).filter
        (fun e => e ∉ pre.flatMap (groupCandidates info)) := by
  have hne : rangeOrder (extractEnv info.ConfigEnv).paths ≠ [] := by
    rw [hg]; simp
  have hexp := getContainerInfo_expected rangeOrder containerID info rs h hne
  have hsome : (getContainerInfo rangeOrder containerID info).isSome := by
    rw [h]; rfl
  rw [getContainerInfo_isSome_iff, hg] at hsome
  have hl := (hsome g (by simp)).1
  obtain ⟨lbs, hlbs⟩ := Option.isSome_iff_exists.1 hl
  rw [hg] at hexp
  refine ⟨{ ID := containerID, Name := info.Name, Env := (extractEnv info.ConfigEnv).envs,
             Labels := (groupLabels info (mergedLabels info) g.1).getD [],
             LogPath := (firstOccurrences (groupCandidates info g)).filter
               (fun e => e ∉ [] ++ pre.flatMap (groupCandidates info)) }, ?_, ?_, ?_⟩
  · rw [hexp]
    exact expectedRecords_getElem _ _ _ _ _ _ _ _
  · simp only [hlbs, Option.getD_some]
  · simp

/-! ## Overlapping mounts (C10) -/

/-- C10 fails on nested mounts: both mounts match `/var/log/app.log`, both resolve it to
`/host/data/log/app.log`, and the `LogPath` of the group holds that path once. -/
theorem overlapping_mounts_counterexample :
    getContainerInfo id "0123456789ab".toList nestedMounts =
      some [{ ID := "0123456789ab".toList, Name := "/app".toList, Env := [],
              Labels := [("index".toList, "app".toList)],
              LogPath := ["/host/data/log/app.log".toList] }] ∧
    mountMatches ⟨"/data/log".toList, "/var/log".toList⟩ "/var/log/app.log".toList ∧
    mountMatches ⟨"/data".toList, "/var".toList⟩ "/var/log/app.log".toList ∧
    mountCandidate ⟨"/data/log".toList, "/var/log".toList⟩ "/var/log/app.log".toList =
      mountCandidate ⟨"/data".toList, "/var".toList⟩ "/var/log/app.log".toList := by
  decide

/-- C10, amended. Let `p` be a declared path other than `stdout` of the group `g`, visited
after the groups `pre`, let `r` be the record of `g`, and let two mounts both match `p`.
The `LogPath` of `r` is the list of the host paths of `g`, later duplicates removed,
without those a group of `pre` resolves to.  The host path
`path.Join("/host", m.Source + p[len(m.Destination):])` of each of the two mounts is a
host path of `g`; it is an entry of the `LogPath` of `r` unless a group of `pre`
resolves to it, and then it is an entry of the `LogPath` of the record of the first such
group, which is likewise made of that group's own host paths.  No host path occurs twice
among all `LogPath` entries of the container.  So the two mounts yield two distinct
entries when their host paths differ and a single entry when they coincide. -/
theorem overlapping_mounts
    (rangeOrder : List (GoString × List GoString) → List (GoString × List GoString))
    (containerID : GoString) (info : ContainerJSON) (rs : List ContainerInfo)
    (h : getContainerInfo rangeOrder containerID info = some rs)
    (pre post : List (GoString × List GoString)) (g : GoString × List GoString)
    (hg : rangeOrder (extractEnv info.ConfigEnv).paths = pre ++ g :: post)
    (p : GoString) (hpg : p ∈ g.2) (hp : p ≠ stdout)
    (m₁ m₂ : MountPoint) (hm₁ : m₁ ∈ info.Mounts) (hm₂ : m₂ ∈ info.Mounts)
    (h₁ : mountMatches m₁ p) (h₂ : mountMatches m₂ p) :
    ∃ r, rs[pre.length]? = some r ∧
      groupLabels info (mergedLabels info) g.1 = some r.Labels ∧
      r.LogPath = (firstOccurrences (groupCandidates info g)).filter
        (fun e => e ∉ pre.flatMap (groupCandidates info)) ∧
      (∀ c ∈ [mountCandidate m₁ p, mountCandidate m₂ p],
        c ∈ groupCandidates info g ∧
        (c ∉ pre.flatMap (groupCandidates info) → c ∈ r.LogPath) ∧
        (c ∈ pre.flatMap (groupCandidates info) →
          ∃ pre' g' post' r', pre = pre' ++ g' :: post' ∧
            rs[pre'.length]? = some r' ∧
            groupLabels info (mergedLabels info) g'.1 = some r'.Labels ∧
            r'.LogPath = (firstOccurrences (groupCandidates info g')).filter
              (fun e => e ∉ pre'.flatMap (groupCandidates info)) ∧
            c ∈ groupCandidates info g' ∧ c ∉ pre'.flatMap (groupCandidates info) ∧
            c ∈ r'.LogPath)) ∧
      (rs.flatMap (fun r => r.LogPath)).Nodup := by
  obtain ⟨r, hr, hlab, hlp⟩ := getContainerInfo_record_at rangeOrder containerID info rs h
    pre post g hg
  have hcand : ∀ m ∈ info.Mounts, mountMatches m p →
      mountCandidate m p ∈ groupCandidates info g := by
    intro m hm hmatch
    unfold groupCandidates
    rw [List.mem_flatMap]
    refine ⟨p, hpg, ?_⟩
    unfold pathCandidates
    rw [if_neg hp, List.mem_map]
    exact ⟨m, List.mem_filter.2 ⟨hm, by simpa using hmatch⟩, rfl⟩
  have hone : ∀ c, c ∈ groupCandidates info g →
      (c ∉ pre.flatMap (groupCandidates info) → c ∈ r.LogPath) ∧
      (c ∈ pre.flatMap (groupCandidates info) →
        ∃ pre' g' post' r', pre = pre' ++ g' :: post' ∧
          rs[pre'.length]? = some r' ∧
          groupLabels info (mergedLabels info) g'.1 = some r'.Labels ∧
          r'.LogPath = (firstOccurrences (groupCandidates info g')).filter
            (fun e => e ∉ pre'.flatMap (groupCandidates info)) ∧
          c ∈ groupCandidates info g' ∧ c ∉ pre'.flatMap (groupCandidates info) ∧
          c ∈ r'.LogPath) := by
    intro c hc
    constructor
    · intro hnot
      rw [hlp, List.mem_filter, mem_firstOccurrences]
      exact ⟨hc, by simpa using hnot⟩
    · intro hin
      obtain ⟨pre', g', post', hpre, hc', hnot'⟩ := exists_first_group info c pre hin
      have hg' : rangeOrder (extractEnv info.ConfigEnv).paths =
          pre' ++ g' :: (post' ++ g :: post) := by
        rw [hg, hpre]; simp
      obtain ⟨r', hr', hlab', hlp'⟩ := getContainerInfo_record_at rangeOrder containerID
        info rs h pre' (post' ++ g :: post) g' hg'
      refine ⟨pre', g', post', r', hpre, hr', hlab', hlp', hc', hnot', ?_⟩
      rw [hlp', List.mem_filter, mem_firstOccurrences]
      exact ⟨hc', by simpa using hnot'⟩
  obtain ⟨rs0, _, hcat, hcase⟩ := getContainerInfo_some _ _ _ _ h
  have hnodup : (rs.flatMap (fun r => r.LogPath)).Nodup := by
    rcases hcase with ⟨_, h0⟩ | ⟨_, h0⟩
    · subst h0
      simp [emptyContainerInfo]
    · subst h0
      rw [hcat]
      exact nodup_firstOccurrences _
  refine ⟨r, hr, hlab, hlp, ?_, hnodup⟩
  intro c hc
  simp only [List.mem_cons, List.mem_singleton, List.not_mem_nil, or_false] at hc
  rcases hc with rfl | rfl
  · exact ⟨hcand m₁ hm₁ h₁, hone _ (hcand m₁ hm₁ h₁)⟩
  · exact ⟨hcand m₂ hm₂ h₂, hone _ (hcand m₂ hm₂ h₂)⟩

/-- C10, amended, on the group `b` of a container whose groups `a` and `b` declare the
same path under two overlapping mounts: the two host paths are two distinct entries, and
they are entries of the record of `a`, the group visited first. -/
theorem overlapping_mounts_witness :
    getContainerInfo id "0123456789ab".toList sharedPathGroups =
      some [sharedPathRecord "a".toList
              ["/host/data/app1/app.log".toList, "/host/data/log/app.log".toList],
            sharedPathRecord "b".toList []] ∧
    ∃ r, [sharedPathRecord "a".toList
            ["/host/data/app1/app.log".toList, "/host/data/log/app.log".toList],
          sharedPathRecord "b".toList []][1]? = some r ∧
      groupLabels sharedPathGroups (mergedLabels sharedPathGroups) "b".toList =
        some r.Labels ∧
      r.LogPath = (firstOccurrences
          (groupCandidates sharedPathGroups ("b".toList, ["/var/log/app.log".toList]))).filter
        (fun e => e ∉ [("a".toList, ["/var/log/app.log".toList])].flatMap
          (groupCandidates sharedPathGroups)) ∧
      (∀ c ∈ [mountCandidate ⟨"/data/app1".toList, "/var/log".toList⟩ "/var/log/app.log".toList,
              mountCandidate ⟨"/data".toList, "/var".toList⟩ "/var/log/app.log".toList],
        c ∈ groupCandidates sharedPathGroups ("b".toList, ["/var/log/app.log".toList]) ∧
        (c ∉ [("a".toList, ["/var/log/app.log".toList])].flatMap
            (groupCandidates sharedPathGroups) → c ∈ r.LogPath) ∧
        (c ∈ [("a".toList, ["/var/log/app.log".toList])].flatMap
            (groupCandidates sharedPathGroups) →
          ∃ pre' g' post' r',
            [("a".toList, ["/var/log/app.log".toList])] = pre' ++ g' :: post' ∧
            [sharedPathRecord "a".toList
               ["/host/data/app1/app.log".toList, "/host/data/log/app.log".toList],
             sharedPathRecord "b".toList []][pre'.length]? = some r' ∧
            groupLabels sharedPathGroups (mergedLabels sharedPathGroups) g'.1 =
              some r'.Labels ∧
            r'.LogPath = (firstOccurrences (groupCandidates sharedPathGroups g')).filter
              (fun e => e ∉ pre'.flatMap (groupCandidates sharedPathGroups)) ∧
            c ∈ groupCandidates sharedPathGroups g' ∧
            c ∉ pre'.flatMap (groupCandidates sharedPathGroups) ∧
            c ∈ r'.LogPath)) ∧
      ([sharedPathRecord "a".toList
          ["/host/data/app1/app.log".toList, "/host/data/log/app.log".toList],
        sharedPathRecord "b".toList []].flatMap (fun r => r.LogPath)).Nodup :=
  ⟨by decide,
   overlapping_mounts id "0123456789ab".toList sharedPathGroups
     [sharedPathRecord "a".toList
        ["/host/data/app1/app.log".toList, "/host/data/log/app.log".toList],
      sharedPathRecord "b".toList []]
     (by decide) [("a".toList, ["/var/log/app.log".toList])] []
     ("b".toList, ["/var/log/app.log".toList]) (by decide)
     "/var/log/app.log".toList (by decide) (by decide)
     ⟨"/data/app1".toList, "/var/log".toList⟩ ⟨"/data".toList, "/var".toList⟩
     (by decide) (by decide) (by decide) (by decide)⟩

/-! ## Determinism of the resolution (C9) -/

/-- C9 fails when two groups resolve to the same host path: with the groups visited in
the order `a`, `b` the record of `a` holds the runtime log file and the record of `b` is
empty, and in the order `b`, `a` it is the other way round. -/
theorem resolution_order_counterexample :
    (List.reverse (extractEnv stdoutInTwoGroups.ConfigEnv).paths).Perm
      (extractEnv stdoutInTwoGroups.ConfigEnv).paths ∧
    getContainerInfo id "0123456789ab".toList stdoutInTwoGroups =
      some [stdoutGroupRecord "a".toList ["/host/var/lib/docker/c.log".toList],
            stdoutGroupRecord "b".toList []] ∧
    getContainerInfo List.reverse "0123456789ab".toList stdoutInTwoGroups =
      some [stdoutGroupRecord "b".toList ["/host/var/lib/docker/c.log".toList],
            stdoutGroupRecord "a".toList []] ∧
    (stdoutGroupRecord "a".toList ["/host/var/lib/docker/c.log".toList]).LogPath ≠
      (stdoutGroupRecord "a".toList []).LogPath :=
  ⟨List.reverse_perm _, by decide, by decide, by decide⟩

theorem stripLogPath_of_recordOfGroup (containerID : GoString) (info : ContainerJSON)
    (envs labels : List (GoString × GoString)) (groups : List (GoString × List GoString))
    (rs : List ContainerInfo)
    (h : List.Forall₂ (recordOfGroup containerID info envs labels) groups rs) :
    rs.map stripLogPath = groups.map (fun g =>
      { ID := containerID, Name := info.Name, Env := envs,
        Labels := (groupLabels info labels g.1).getD [], LogPath := [] }) := by
  induction h with
  | nil => rfl
  | cons hgr _ ih =>
    simp only [List.map_cons, ih, List.cons.injEq, and_true]
    obtain ⟨h1, h2, h3, h4, _⟩ := hgr
    simp only [stripLogPath, h1, h2, h3, h4, Option.getD_some]

theorem noSharedPath_perm (info : ContainerJSON)
    (l₁ l₂ : List (GoString × List GoString)) (hp : l₁.Perm l₂)
    (h : noSharedPath info l₁) : noSharedPath info l₂ := by
  unfold noSharedPath at h ⊢
  refine (hp.pairwise_iff ?_).1 h
  intro g g' hgg' e he he'
  exact hgg' e he' he

/-- C9, amended. Resolution is a function of the inspection and of the order in which
the groups are visited.  For two orders that are permutations of the path groups, either
both runs panic or both return; the two record sequences agree, up to their order and
with the `LogPath` left aside, on `ID`, `Name`, `Env` and `Labels`, and they hold the
same `LogPath` entries overall.  In each run the record of a group carries the labels of
the group and its `LogPath` is the list of the host paths of the group, later duplicates
removed, without those a group visited earlier in that run resolves to: a host path that
several groups resolve to is recorded only in the group visited first.  Hence, when no
host path is shared by two groups, the two runs return the same records up to their
order, `LogPath` included. -/
theorem resolution_order_independent
    (order₁ order₂ : List (GoString × List GoString) → List (GoString × List GoString))
    (hperm₁ : ∀ m, (order₁ m).Perm m) (hperm₂ : ∀ m, (order₂ m).Perm m)
    (containerID : GoString) (info : ContainerJSON) :
    ((getContainerInfo order₁ containerID info).isSome ↔
      (getContainerInfo order₂ containerID info).isSome) ∧
    ∀ rs₁ rs₂, getContainerInfo order₁ containerID info = some rs₁ →
      getContainerInfo order₂ containerID info = some rs₂ →
      (rs₁.map stripLogPath).Perm (rs₂.map stripLogPath) ∧
      (∀ e, e ∈ rs₁.flatMap (fun r => r.LogPath) ↔ e ∈ rs₂.flatMap (fun r => r.LogPath)) ∧
      (∀ pre g post, order₁ (extractEnv info.ConfigEnv).paths = pre ++ g :: post →
        ∃ r, rs₁[pre.length]? = some r ∧
          groupLabels info (mergedLabels info) g.1 = some r.Labels ∧
          r.LogPath = (firstOccurrences (groupCandidates info g)).filter
            (fun e => e ∉ pre.flatMap (groupCandidates info))) ∧
      (∀ pre g post, order₂ (extractEnv info.ConfigEnv).paths = pre ++ g :: post →
        ∃ r, rs₂[pre.length]? = some r ∧
          groupLabels info (mergedLabels info) g.1 = some r.Labels ∧
          r.LogPath = (firstOccurrences (groupCandidates info g)).filter
            (fun e => e ∉ pre.flatMap (groupCandidates info))) ∧
      (noSharedPath info (extractEnv info.ConfigEnv).paths → rs₁.Perm rs₂) := by
  have hp : (order₁ (extractEnv info.ConfigEnv).paths).Perm
      (order₂ (extractEnv info.ConfigEnv).paths) := (hperm₁ _).trans (hperm₂ _).symm
  constructor
  · rw [getContainerInfo_isSome_iff, getContainerInfo_isSome_iff]
    constructor
    · exact fun h g hg => h g (hp.mem_iff.2 hg)
    · exact fun h g hg => h g (hp.mem_iff.1 hg)
  · intro rs₁ rs₂ h₁ h₂
    obtain ⟨a₁, hall₁, hcat₁, hcase₁⟩ := getContainerInfo_some _ _ _ _ h₁
    obtain ⟨a₂, hall₂, hcat₂, hcase₂⟩ := getContainerInfo_some _ _ _ _ h₂
    have hs₁ := stripLogPath_of_recordOfGroup _ _ _ _ _ _ hall₁
    have hs₂ := stripLogPath_of_recordOfGroup _ _ _ _ _ _ hall₂
    have hstrip : (a₁.map stripLogPath).Perm (a₂.map stripLogPath) := by
      rw [hs₁, hs₂]
      exact hp.map _
    have hmem : ∀ e, e ∈ a₁.flatMap (fun r => r.LogPath) ↔
        e ∈ a₂.flatMap (fun r => r.LogPath) := by
      intro e
      rw [hcat₁, hcat₂, mem_firstOccurrences, mem_firstOccurrences, List.mem_flatMap,
        List.mem_flatMap]
      constructor
      · rintro ⟨g, hg, he⟩
        exact ⟨g, hp.mem_iff.1 hg, he⟩
      · rintro ⟨g, hg, he⟩
        exact ⟨g, hp.mem_iff.2 hg, he⟩
    have hnil : a₁ = [] ↔ a₂ = [] := by
      have := hstrip.length_eq
      simp only [List.length_map] at this
      rw [← List.length_eq_zero, ← List.length_eq_zero (l := a₂), this]
    have hat₁ := fun pre g post =>
      getContainerInfo_record_at order₁ containerID info rs₁ h₁ pre post g
    have hat₂ := fun pre g post =>
      getContainerInfo_record_at order₂ containerID info rs₂ h₂ pre post g
    have hfull : noSharedPath info (extractEnv info.ConfigEnv).paths → rs₁.Perm rs₂ := by
      intro hshared
      rcases hcase₁ with ⟨e₁, r₁⟩ | ⟨n₁, r₁⟩
      · rcases hcase₂ with ⟨_, r₂⟩ | ⟨n₂, _⟩
        · subst r₁ r₂
          exact List.Perm.refl _
        · exact absurd (hnil.1 e₁) n₂
      · rcases hcase₂ with ⟨e₂, _⟩ | ⟨n₂, r₂⟩
        · exact absurd (hnil.2 e₂) n₁
        · have hne₁ : order₁ (extractEnv info.ConfigEnv).paths ≠ [] := by
            intro e
            rw [e, List.forall₂_nil_left_iff] at hall₁
            exact n₁ hall₁
          have hne₂ : order₂ (extractEnv info.ConfigEnv).paths ≠ [] := by
            intro e
            rw [e, List.forall₂_nil_left_iff] at hall₂
            exact n₂ hall₂
          rw [getContainerInfo_expected order₁ containerID info rs₁ h₁ hne₁,
            getContainerInfo_expected order₂ containerID info rs₂ h₂ hne₂,
            expectedRecords_of_noSharedPath _ _ _ _ _ _ (by simp)
              (noSharedPath_perm info _ _ (hperm₁ _).symm hshared),
            expectedRecords_of_noSharedPath _ _ _ _ _ _ (by simp)
              (noSharedPath_perm info _ _ (hperm₂ _).symm hshared)]
          exact hp.map _
    rcases hcase₁ with ⟨e₁, r₁⟩ | ⟨n₁, r₁⟩
    · rcases hcase₂ with ⟨_, r₂⟩ | ⟨n₂, _⟩
      · refine ⟨?_, ?_, hat₁, hat₂, hfull⟩
        · subst r₁ r₂
          exact List.Perm.refl _
        · subst r₁ r₂
          exact fun e => Iff.rfl
      · exact absurd (hnil.1 e₁) n₂
    · rcases hcase₂ with ⟨e₂, _⟩ | ⟨_, r₂⟩
      · exact absurd (hnil.2 e₂) n₁
      · refine ⟨?_, ?_, hat₁, hat₂, hfull⟩
        · subst r₁ r₂
          exact hstrip
        · subst r₁ r₂
          exact hmem

/-- C9, amended, on the container with `stdout` in the groups `a` and `b`, visited in the
two possible orders, where the record of the group visited second is empty, and on the
container of scenario 3, whose groups share no host path. -/
theorem resolution_order_independent_witness :
    ([stdoutGroupRecord "a".toList ["/host/var/lib/docker/c.log".toList],
      stdoutGroupRecord "b".toList []].map stripLogPath).Perm
    ([stdoutGroupRecord "b".toList ["/host/var/lib/docker/c.log".toList],
      stdoutGroupRecord "a".toList []].map stripLogPath) ∧
    ("/host/var/lib/docker/c.log".toList ∈
        [stdoutGroupRecord "a".toList ["/host/var/lib/docker/c.log".toList],
          stdoutGroupRecord "b".toList []].flatMap (fun r => r.LogPath) ↔
      "/host/var/lib/docker/c.log".toList ∈
        [stdoutGroupRecord "b".toList ["/host/var/lib/docker/c.log".toList],
          stdoutGroupRecord "a".toList []].flatMap (fun r => r.LogPath)) ∧
    (∃ r, [stdoutGroupRecord "b".toList ["/host/var/lib/docker/c.log".toList],
           stdoutGroupRecord "a".toList []][1]? = some r ∧
      groupLabels stdoutInTwoGroups (mergedLabels stdoutInTwoGroups) "a".toList =
        some r.Labels ∧
      r.LogPath = (firstOccurrences
          (groupCandidates stdoutInTwoGroups ("a".toList, ["stdout".toList]))).filter
        (fun e => e ∉ [("b".toList, ["stdout".toList])].flatMap
          (groupCandidates stdoutInTwoGroups))) ∧
    [webRecord, dbRecord].Perm [dbRecord, webRecord] :=
  ⟨((resolution_order_independent id List.reverse (fun _ => List.Perm.refl _)
      (fun _ => List.reverse_perm _) "0123456789ab".toList stdoutInTwoGroups).2
      _ _ (by decide) (by decide)).1,
   ((resolution_order_independent id List.reverse (fun _ => List.Perm.refl _)
      (fun _ => List.reverse_perm _) "0123456789ab".toList stdoutInTwoGroups).2
      [stdoutGroupRecord "a".toList ["/host/var/lib/docker/c.log".toList],
        stdoutGroupRecord "b".toList []]
      [stdoutGroupRecord "b".toList ["/host/var/lib/docker/c.log".toList],
        stdoutGroupRecord "a".toList []] (by decide) (by decide)).2.1 _,
   ((resolution_order_independent id List.reverse (fun _ => List.Perm.refl _)
      (fun _ => List.reverse_perm _) "0123456789ab".toList stdoutInTwoGroups).2
      [stdoutGroupRecord "a".toList ["/host/var/lib/docker/c.log".toList],
        stdoutGroupRecord "b".toList []]
      [stdoutGroupRecord "b".toList ["/host/var/lib/docker/c.log".toList],
        stdoutGroupRecord "a".toList []] (by decide) (by decide)).2.2.2.1
      [("b".toList, ["stdout".toList])] ("a".toList, ["stdout".toList]) [] (by decide),
   ((resolution_order_independent id List.reverse (fun _ => List.Perm.refl _)
      (fun _ => List.reverse_perm _) "0123456789ab".toList webAndDb).2
      [webRecord, dbRecord] [dbRecord, webRecord] (by decide) (by decide)).2.2.2.2
      (by decide)⟩

/-! ## Rooting under the host base (C8) -/

/-- C8 fails on a declared path with `..` elements: `/etc/../../etc/passwd` lies in the
mount on `/etc`, the joined path `/host/data/../../etc/passwd` is cleaned to
`/etc/passwd`, and this entry is neither `/host` nor below `/host/`. -/
theorem host_base_counterexample :
    getContainerInfo id "0123456789ab".toList climbingPath =
      some [{ ID := "0123456789ab".toList, Name := "/app".toList, Env := [],
              Labels := [("index".toList, "app".toList)],
              LogPath := ["/etc/passwd".toList] }] ∧
    "/etc/passwd".toList ≠ "/host".toList ∧
    ¬ ("/host/".toList <+: "/etc/passwd".toList) := by
  decide

theorem pathJoin_logBasePath (s : GoString) :
    pathJoin [logBasePath, s] = pathClean (logBasePath ++ '/' :: s) := by
  have h : logBasePath ≠ [] := by decide
  simp [pathJoin, List.dropWhile, h, List.intercalate]

theorem splitOn_logBasePath (s : GoString) :
    (logBasePath ++ '/' :: s).splitOn '/' = [] :: "host".toList :: s.splitOn '/' := by
  have h1 : logBasePath ++ '/' :: s = [] ++ '/' :: ("host".toList ++ '/' :: s) := by
    simp [logBasePath]
  rw [h1]
  unfold List.splitOn
  rw [List.splitOnP_first (fun x => x == '/') [] (by simp) '/' (by simp),
    List.splitOnP_first (fun x => x == '/') "host".toList (by decide) '/' (by simp)]

theorem cleanStep_foldl_of_no_dotdot (rooted : Bool) (elems stack : List GoString)
    (h : dotdot ∉ elems) :
    elems.foldl (cleanStep rooted) stack = (elems.filter keptElement).reverse ++ stack := by
  induction elems generalizing stack with
  | nil => simp
  | cons e elems ih =>
    simp only [List.mem_cons, not_or] at h
    simp only [List.foldl_cons]
    rw [ih _ h.2]
    have hne : ¬ e = dotdot := fun x => h.1 x.symm
    by_cases hk : e = [] ∨ e = ['.']
    · have : keptElement e = false := by
        rcases hk with rfl | rfl <;> decide
      simp [cleanStep, hk, this]
    · have : keptElement e = true := by
        simp only [not_or] at hk
        simp [keptElement, hk.1, hk.2]
      simp [cleanStep, hk, hne, this]

theorem pathClean_logBasePath (s : GoString) :
    pathClean (logBasePath ++ '/' :: s) =
      '/' :: ['/'].intercalate
        (((logBasePath ++ '/' :: s).splitOn '/').foldl (cleanStep true) []).reverse := by
  have hne : logBasePath ++ '/' :: s ≠ [] := by simp [logBasePath]
  have hr : decide ((logBasePath ++ '/' :: s).head? = some '/') = true := by
    simp [logBasePath]
  have hp : (logBasePath ++ '/' :: s).head? = some '/' := by simp [logBasePath]
  unfold pathClean
  rw [if_neg hne]
  simp only [hr]
  rw [if_pos hp]

theorem pathClean_logBasePath_head (s : GoString) :
    (pathClean (logBasePath ++ '/' :: s)).head? = some '/' := by
  rw [pathClean_logBasePath]
  rfl

theorem pathClean_logBasePath_of_no_dotdot (s : GoString) (h : dotdot ∉ s.splitOn '/') :
    pathClean (logBasePath ++ '/' :: s) = logBasePath ∨
      (logBasePath ++ ['/']) <+: pathClean (logBasePath ++ '/' :: s) := by
  have hfold : ((logBasePath ++ '/' :: s).splitOn '/').foldl (cleanStep true) [] =
      ((s.splitOn '/').filter keptElement).reverse ++ ["host".toList] := by
    rw [splitOn_logBasePath]
    simp only [List.foldl_cons]
    have e1 : cleanStep true [] [] = [] := by decide
    have e2 : cleanStep true [] "host".toList = ["host".toList] := by decide
    rw [e1, e2, cleanStep_foldl_of_no_dotdot true _ _ h]
  rw [pathClean_logBasePath, hfold]
  simp only [List.reverse_append, List.reverse_reverse, List.reverse_cons, List.reverse_nil,
    List.nil_append, List.singleton_append]
  cases hrest : (s.splitOn '/').filter keptElement with
  | nil =>
    left
    decide
  | cons e rest =>
    right
    refine ⟨['/'].intercalate (e :: rest), ?_⟩
    simp [List.intercalate, logBasePath, List.intersperse]

/-- C8, amended. Every entry `e` of every emitted `LogPath` is `path.Join("/host", s)`
where `s` is the runtime log path or `m.Source + p[len(m.Destination):]` for a mount `m`
and a declared path `p`; it is an absolute path (it starts with `/`), and it is `/host`
or starts with `/host/` whenever no path element of `s` is `..`. -/
theorem logPath_under_host_base
    (rangeOrder : List (GoString × List GoString) → List (GoString × List GoString))
    (containerID : GoString) (info : ContainerJSON) (rs : List ContainerInfo)
    (h : getContainerInfo rangeOrder containerID info = some rs) :
    ∀ r ∈ rs, ∀ e ∈ r.LogPath, ∃ s,
      (s = info.LogPath ∨
        ∃ m ∈ info.Mounts, ∃ g ∈ rangeOrder (extractEnv info.ConfigEnv).paths, ∃ p ∈ g.2,
          s = m.Source ++ p.drop m.Destination.length) ∧
      e = pathJoin [logBasePath, s] ∧
      e.head? = some '/' ∧
      (dotdot ∉ s.splitOn '/' → e = logBasePath ∨ (logBasePath ++ ['/']) <+: e) := by
  intro r hr e he
  obtain ⟨rs0, hall, _, hcase⟩ := getContainerInfo_some _ _ _ _ h
  have key : ∀ s, e = pathJoin [logBasePath, s] →
      e.head? = some '/' ∧
      (dotdot ∉ s.splitOn '/' → e = logBasePath ∨ (logBasePath ++ ['/']) <+: e) := by
    intro s hs
    rw [hs, pathJoin_logBasePath]
    exact ⟨pathClean_logBasePath_head s, pathClean_logBasePath_of_no_dotdot s⟩
  rcases hcase with ⟨_, h0⟩ | ⟨_, h0⟩
  · subst h0
    rw [List.mem_singleton] at hr
    subst hr
    simp [emptyContainerInfo] at he
  · subst h0
    obtain ⟨g, hg, hrec⟩ := forall₂_exists_left hall r hr
    have hcand := hrec.2.2.2.2 e he
    unfold groupCandidates at hcand
    obtain ⟨p, hp, hep⟩ := List.mem_flatMap.1 hcand
    unfold pathCandidates at hep
    by_cases hstd : p = stdout
    · rw [if_pos hstd, List.mem_singleton] at hep
      exact ⟨info.LogPath, Or.inl rfl, hep, key _ hep⟩
    · rw [if_neg hstd, List.mem_map] at hep
      obtain ⟨m, hm, hem⟩ := hep
      have hm' := (List.mem_filter.1 hm).1
      exact ⟨m.Source ++ p.drop m.Destination.length,
        Or.inr ⟨m, hm', g, hg, p, hp, rfl⟩, hem.symm, key _ hem.symm⟩

/-- C8, amended, on the container of scenario 2 with overlapping mounts: its entry
`/host/data/app1/app.log` starts with `/host/`. -/
theorem logPath_under_host_base_witness :
    getContainerInfo id "0123456789ab".toList overlappingMounts =
      some [overlappingMountsRecord] ∧
    ∃ s, (s = overlappingMounts.LogPath ∨
        ∃ m ∈ overlappingMounts.Mounts,
          ∃ g ∈ id (extractEnv overlappingMounts.ConfigEnv).paths, ∃ p ∈ g.2,
            s = m.Source ++ p.drop m.Destination.length) ∧
      "/host/data/app1/app.log".toList = pathJoin [logBasePath, s] ∧
      ("/host/data/app1/app.log".toList).head? = some '/' ∧
      (dotdot ∉ s.splitOn '/' → "/host/data/app1/app.log".toList = logBasePath ∨
        (logBasePath ++ ['/']) <+: "/host/data/app1/app.log".toList) :=
  ⟨by decide,
   logPath_under_host_base id "0123456789ab".toList overlappingMounts
     [overlappingMountsRecord] (by decide) overlappingMountsRecord (by decide)
     "/host/data/app1/app.log".toList (by decide)⟩

end Conveyor
